import Mathlib

/-!
Verification of the span-masking engine of the `mask` repository
(`src/mask.py`, `src/app.py`).

Text is modelled as `List Char`.  Python's `str.replace` (leftmost,
non-overlapping, replace-all) is modelled by `replaceAll`; Python's stable
`sorted(..., key=len, reverse=True)` by an insertion sort that keeps ties in
input order.  The spaCy entity recognizer and Python's `re` engine are
external collaborators of the code (black-box span/match producers); they
enter the model as explicit inputs: the recognizer output is a `List Ent`
argument and each regex scan is an oracle function from the scanned text to
the list of matched substrings, applied exactly where the source applies
`re.findall` / `re.finditer`.  The filesystem behind the mapping store is
modelled as a function from filename to an optional stored map.
-/

set_option maxRecDepth 10000

namespace Mask

/-- Characters of a document. -/
abbrev Str := List Char

/-- String literal helper. -/
def str (s : String) : Str := s.toList

/-- Concatenation of a list of strings. -/
def cat (l : List Str) : Str := l.foldr (· ++ ·) []

/-- `isPre p t`: `p` is a leading segment of `t` (Python's `startswith`). -/
def isPre : Str → Str → Bool
  | [], _ => true
  | _ :: _, [] => false
  | a :: as, b :: bs => a == b && isPre as bs

/-- `hasSub t s`: `s` occurs as a contiguous substring of `t`
(Python's `s in t`). -/
def hasSub : Str → Str → Bool
  | [], s => isPre s []
  | c :: t, s => isPre s (c :: t) || hasSub t s

/-- `Occurs s t`: `s` occurs as a contiguous substring of `t`. -/
def Occurs (s t : Str) : Prop := ∃ a b, t = a ++ s ++ b

/-- Fuel-driven core of `replaceAll`; the fuel is an upper bound on the
length of the text, so that the definition is structurally recursive and
evaluates inside the kernel. -/
def repFuel : Nat → Str → Str → Str → Str
  | _, xs, [], repl => repl ++ cat (xs.map (fun c => c :: repl))
  | 0, xs, _ :: _, _ => xs
  | fuel + 1, xs, p :: ps, repl =>
    match xs with
    | [] => []
    | c :: t =>
      if isPre (p :: ps) (c :: t) then repl ++ repFuel fuel (t.drop ps.length) (p :: ps) repl
      else c :: repFuel fuel t (p :: ps) repl

/-- Python's `text.replace(pat, repl)`: replace every occurrence of `pat`
in `text` by `repl`, scanning left to right without overlap.  For the empty
pattern this inserts `repl` at every position, as Python does. -/
def replaceAll (xs pat repl : Str) : Str := repFuel xs.length xs pat repl

/-- Stable insertion for descending sort by a numeric key: the element goes
in front of the first entry whose key is `≤` its own, hence after all
strictly larger keys and before all equal keys that occur later in the
input. -/
def insLen {α : Type} (key : α → Nat) (a : α) : List α → List α
  | [] => [a]
  | b :: t => if key b ≤ key a then a :: b :: t else b :: insLen key a t

/-- Python's stable `sorted(l, key=key, reverse=True)` for a numeric key
(used by the source both with `key=lambda x: len(x[0])` and `key=len`). -/
def sortLenDesc {α : Type} (key : α → Nat) (l : List α) : List α :=
  l.foldr (insLen key) []

/-- Decimal digits of `n`, least significant first; the fuel argument makes
the recursion structural. -/
def digRev : Nat → Nat → List Nat
  | 0, _ => []
  | _ + 1, 0 => []
  | fuel + 1, n + 1 => ((n + 1) % 10) :: digRev fuel ((n + 1) / 10)

/-- The character of a decimal digit. -/
def digChar : Nat → Char
  | 0 => '0'
  | 1 => '1'
  | 2 => '2'
  | 3 => '3'
  | 4 => '4'
  | 5 => '5'
  | 6 => '6'
  | 7 => '7'
  | 8 => '8'
  | 9 => '9'
  | _ => '*'

/-- Python's `str(n)` for a natural number: its decimal digit string. -/
def digStr (n : Nat) : Str :=
  if n = 0 then ['0'] else ((digRev n n).map digChar).reverse

/-- A spaCy entity span as consumed by `mask_email`
(`ent.text, ent.start_char, ent.end_char, ent.label_`). -/
structure Ent where
  text : Str
  startChar : Nat
  endChar : Nat
  label : Str
deriving DecidableEq

/-- The entity map built by one masking run: placeholder/original pairs in
insertion order (a Python dict preserves insertion order). -/
abbrev EntityMap := List (Str × Str)

/-- `entity_types` of `mask_email` (src/mask.py lines 38-41). -/
def entityTypes : List Str :=
  [str "PERSON", str "ORG", str "PRODUCT", str "GPE", str "DATE", str "MONEY",
   str "CARDINAL", str "ORDINAL", str "QUANTITY", str "LOC", str "FAC"]

/-- `f"[{label}_{n}]"` (src/mask.py line 61 and the EMAIL/URL variants). -/
def placeholder (label : Str) (n : Nat) : Str :=
  '[' :: label ++ '_' :: digStr n ++ [']']

/-- `f"[{label}_{i}_{j}]"`, the sub-variant placeholder format used by the
phone (`[PHONE_{i}_{j+1}]`) and attachment (`[ATTACHMENT_{i}_{n}]`)
detectors. -/
def subPlaceholder (label : Str) (i j : Nat) : Str :=
  '[' :: label ++ '_' :: digStr i ++ '_' :: digStr j ++ [']']

/-- Python dict assignment `entity_map[placeholder] = ent_text`: update the
entry in place when the key exists, append otherwise. -/
def insertEntity (m : EntityMap) (k v : Str) : EntityMap :=
  if m.any (fun e => decide (e.1 = k)) then
    m.map (fun e => if e.1 = k then (k, v) else e)
  else m ++ [(k, v)]

/-- The resolver's overlap test (src/mask.py line 58):
`any(start_char < end and end_char > start for start, end in masked_spans)`. -/
def overlapsAny (spans : List (Nat × Nat)) (s e : Nat) : Bool :=
  spans.any (fun se => decide (s < se.2) && decide (e > se.1))

/-- One iteration of the entity-masking loop (src/mask.py lines 56-68): skip
the candidate if it overlaps an accepted interval, otherwise assign the next
placeholder `[label_{len(entity_map)+1}]`, record the mapping, replace every
occurrence of the surface text, and remember the interval. -/
def nerStep (st : Str × EntityMap × List (Nat × Nat)) (ent : Ent) :
    Str × EntityMap × List (Nat × Nat) :=
  if overlapsAny st.2.2 ent.startChar ent.endChar then st
  else
    let ph := placeholder ent.label (st.2.1.length + 1)
    (replaceAll st.1 ent.text ph, insertEntity st.2.1 ph ent.text,
      st.2.2 ++ [(ent.startChar, ent.endChar)])

/-- The candidate list of the entity-recognizer pass: the recognizer spans
whose label is enabled, sorted by surface length descending (stable), as in
src/mask.py lines 46-53. -/
def sortedCandidates (docEnts : List Ent) : List Ent :=
  sortLenDesc (fun e => e.text.length)
    (docEnts.filter (fun e => decide (e.label ∈ entityTypes)))

/-- The entity-recognizer pass of `mask_email` (src/mask.py lines 46-68):
filter the recognizer spans by label, sort by surface length descending
(stable), then run the accept/assign/replace loop. -/
def nerFold (emailText : Str) (docEnts : List Ent) :
    Str × EntityMap × List (Nat × Nat) :=
  (sortedCandidates docEnts).foldl
    nerStep (emailText, ([] : EntityMap), ([] : List (Nat × Nat)))

/-- A regex pass over the working text with an index-derived placeholder:
`for i, t in enumerate(found): placeholder = mk(i); map[placeholder] = t;
masked = masked.replace(t, placeholder)` (the EMAIL, PHONE and URL passes,
src/mask.py lines 70-99). -/
def passFold (mk : Nat → Str) : Nat → List Str → Str × EntityMap → Str × EntityMap
  | _, [], wm => wm
  | i, t :: ts, wm =>
    passFold mk (i + 1) ts (replaceAll wm.1 t (mk i), insertEntity wm.2 (mk i) t)

/-- The phone pass (src/mask.py lines 78-91): for each of the three phone
patterns in order (the loop is unrolled here), collect the matches of that
pattern against the current working text and replace each with
`[PHONE_{i}_{j+1}]`.  `findPhones i` stands for
`re.finditer(phone_patterns[i], ...)`. -/
def phonePass (findPhones : Nat → Str → List Str) (wm : Str × EntityMap) :
    Str × EntityMap :=
  let wm0 := passFold (fun j => subPlaceholder (str "PHONE") 0 (j + 1)) 0
    (findPhones 0 wm.1) wm
  let wm1 := passFold (fun j => subPlaceholder (str "PHONE") 1 (j + 1)) 0
    (findPhones 1 wm0.1) wm0
  passFold (fun j => subPlaceholder (str "PHONE") 2 (j + 1)) 0
    (findPhones 2 wm1.1) wm1

/-- One attachment pattern's loop (src/mask.py lines 111-116): the counter in
`[ATTACHMENT_{i}_{len(entity_map)+1}]` is read off the map at each step. -/
def attFold (i : Nat) : List Str → Str × EntityMap → Str × EntityMap
  | [], wm => wm
  | t :: ts, wm =>
    attFold i ts
      (replaceAll wm.1 t (subPlaceholder (str "ATTACHMENT") i (wm.2.length + 1)),
        insertEntity wm.2 (subPlaceholder (str "ATTACHMENT") i (wm.2.length + 1)) t)

/-- The attachment pass (src/mask.py lines 101-116): six patterns in order
(the loop is unrolled here), matched case-insensitively against the current
working text by `findAttach i`. -/
def attachPass (findAttach : Nat → Str → List Str) (wm : Str × EntityMap) :
    Str × EntityMap :=
  let wm0 := attFold 0 (findAttach 0 wm.1) wm
  let wm1 := attFold 1 (findAttach 1 wm0.1) wm0
  let wm2 := attFold 2 (findAttach 2 wm1.1) wm1
  let wm3 := attFold 3 (findAttach 3 wm2.1) wm2
  let wm4 := attFold 4 (findAttach 4 wm3.1) wm3
  attFold 5 (findAttach 5 wm4.1) wm4

/-- The regex scans of `mask_email`, as black-box oracles for Python's `re`
engine on the source's fixed patterns, each applied to the text the source
applies it to. -/
structure MaskOracles where
  findEmails : Str → List Str
  findPhones : Nat → Str → List Str
  findUrls : Str → List Str
  findAttach : Nat → Str → List Str

/-- `mask_email` (src/mask.py lines 18-123), masked text and entity map.
The md5-derived `email_id` and the JSON dump of the map are filesystem /
hashlib side effects outside the text-rewriting core and are not part of
this value. -/
def mask_email (emailText : Str) (docEnts : List Ent) (o : MaskOracles) :
    Str × EntityMap :=
  let st := nerFold emailText docEnts
  let wm1 : Str × EntityMap := (st.1, st.2.1)
  let wm2 := passFold (fun i => placeholder (str "EMAIL") (i + 1)) 0
    (o.findEmails wm1.1) wm1
  let wm3 := phonePass o.findPhones wm2
  let wm4 := passFold (fun i => placeholder (str "URL") (i + 1)) 0
    (o.findUrls wm3.1) wm3
  attachPass o.findAttach wm4

/-- The placeholder keys sorted by length descending, stable
(`sorted(entity_map.keys(), key=len, reverse=True)`). -/
def sortKeysDesc (m : EntityMap) : EntityMap :=
  sortLenDesc (fun e => e.1.length) m

/-- The unmask rewrite (src/mask.py lines 142-151, src/app.py lines
271-280): replace every occurrence of each placeholder by its mapped
original text, taking the keys in length-descending order.  Iterating the
sorted `(key, value)` pairs is Python's iteration over the sorted keys with
a dict lookup, since dict keys are unique. -/
def unmaskWithMap (maskedEmail : Str) (m : EntityMap) : Str :=
  (sortKeysDesc m).foldl (fun w e => replaceAll w e.1 e.2) maskedEmail

/-- `get_mapping_filename` (src/app.py lines 44-47); the `os.makedirs` call
is a filesystem side effect. -/
def getMappingFilename (emailId : Str) : Str :=
  str "mappings/entity_mapping_" ++ emailId ++ str ".json"

/-- `unmask_email` (src/app.py lines 248-280).  `store` models the
filesystem: the JSON mapping stored under a filename, if any; a `none`
answer is Python's `FileNotFoundError` branch.  The result is the returned
pair: the restored text with the map used, or an error message with
`None`. -/
def unmask_email (store : Str → Option EntityMap) (maskedEmail : Str)
    (emailId : Option Str) (entityMap : Option EntityMap) :
    Str × Option EntityMap :=
  match entityMap, emailId with
  | none, some id =>
    match store (getMappingFilename id) with
    | none =>
      (str "Error: Mapping file '" ++ getMappingFilename id ++ str "' not found.",
        none)
    | some em => (unmaskWithMap maskedEmail em, some em)
  | none, none => (str "Error: No entity mapping provided or found.", none)
  | some em, _ => (unmaskWithMap maskedEmail em, some em)

/-- The resolver in isolation: the accepted candidates of the
sort-then-greedy-accept loop, in processing order, together with their
intervals.  `nerFold` runs exactly this accept test (theorem
`nerFold_resolve` below relates the two). -/
def resolve (l : List Ent) : List Ent × List (Nat × Nat) :=
  l.foldl
    (fun acc e =>
      if overlapsAny acc.2 e.startChar e.endChar then acc
      else (acc.1 ++ [e], acc.2 ++ [(e.startChar, e.endChar)]))
    (([] : List Ent), ([] : List (Nat × Nat)))

/-- Folding one text rewrite per (surface, placeholder) pair: the sequence
of `str.replace` calls a masking run performs. -/
def maskAll (w : Str) (ps : List (Str × Str)) : Str :=
  ps.foldl (fun w sp => replaceAll w sp.1 sp.2) w

/-! ### Proof infrastructure

A partially masked text is represented as a head string followed by
alternating placeholder markers and raw strings; a marker remembers the
surface text it replaced together with the placeholder string standing in
its place.  `flatM` reads the structure as the masked text, `flatO` as the
text with every marker put back to its surface form. -/

/-- A placeholder-shaped token: bracketed, with a bracket-free body. -/
def IsPh (p : Str) : Prop :=
  ∃ body, p = '[' :: body ++ [']'] ∧ '[' ∉ body ∧ ']' ∉ body

/-- A marker: the surface text that was replaced and its placeholder. -/
abbrev Marker := Str × Str

/-- The tail of a masked-text structure: marker / raw-string pairs. -/
abbrev MRest := List (Marker × Str)

/-- Read an `MRest` as masked text (markers shown as placeholders). -/
def flatM (r : MRest) : Str := r.foldr (fun e acc => e.1.2 ++ e.2 ++ acc) []

/-- Read an `MRest` as original text (markers shown as surfaces). -/
def flatO (r : MRest) : Str := r.foldr (fun e acc => e.1.1 ++ e.2 ++ acc) []

/-- Fuel-driven greedy occurrence split, recursing exactly as `repFuel`
does: the head piece before the first occurrence of the pattern and the
pieces after each further occurrence. -/
def osFuel : Nat → Str → Str → Str × List Str
  | _, xs, [] => (xs, [])
  | 0, xs, _ :: _ => (xs, [])
  | fuel + 1, xs, p :: ps =>
    match xs with
    | [] => ([], [])
    | c :: t =>
      if isPre (p :: ps) (c :: t) then
        ([], (osFuel fuel (t.drop ps.length) (p :: ps)).1 ::
          (osFuel fuel (t.drop ps.length) (p :: ps)).2)
      else
        (c :: (osFuel fuel t (p :: ps)).1, (osFuel fuel t (p :: ps)).2)

/-- Greedy decomposition of a text at the occurrences of a pattern. -/
def occSplit (xs pat : Str) : Str × List Str := osFuel xs.length xs pat

/-- Replacing one surface inside the tail structure: each raw string is
split at the occurrences of the surface, every occurrence becoming a new
marker. -/
def maskRest (s p : Str) : MRest → MRest
  | [] => []
  | e :: t =>
    (e.1, (occSplit e.2 s).1) ::
      ((occSplit e.2 s).2.map (fun y => ((s, p), y)) ++ maskRest s p t)

/-- Replacing one surface inside a full structure. -/
def maskStruct (s p h : Str) (r : MRest) : Str × MRest :=
  ((occSplit h s).1, (occSplit h s).2.map (fun y => ((s, p), y)) ++ maskRest s p r)

/-- Folding `maskStruct` over a pair list, mirroring `maskAll`. -/
def maskStructAll (hr : Str × MRest) (ps : List (Str × Str)) : Str × MRest :=
  ps.foldl (fun hr sp => maskStruct sp.1 sp.2 hr.1 hr.2) hr

/-- Restoring every marker carrying placeholder `p` inside the tail
structure: such a marker dissolves into its surface text, merged with the
neighbouring raw strings.  Returns the raw text absorbed at the front and
the remaining tail. -/
def unmaskRest (p : Str) : MRest → Str × MRest
  | [] => ([], [])
  | e :: t =>
    let yt := unmaskRest p t
    if e.1.2 = p then (e.1.1 ++ e.2 ++ yt.1, yt.2)
    else ([], (e.1, e.2 ++ yt.1) :: yt.2)

/-- Restoring one placeholder inside a full structure. -/
def unmaskStruct (p h : Str) (r : MRest) : Str × MRest :=
  (h ++ (unmaskRest p r).1, (unmaskRest p r).2)

/-- Value of a little-endian digit list (used to invert `digRev`). -/
def unDig : List Nat → Nat
  | [] => 0
  | d :: ds => d + 10 * unDig ds

/-- The candidates the greedy walk accepts, given already-accepted
intervals: the functional core of `resolve`. -/
def resolveNew (spans : List (Nat × Nat)) : List Ent → List Ent
  | [] => []
  | e :: t =>
    if overlapsAny spans e.startChar e.endChar then resolveNew spans t
    else e :: resolveNew (spans ++ [(e.startChar, e.endChar)]) t

/-- The accepted intervals after the greedy walk. -/
def resolveSpans (spans : List (Nat × Nat)) : List Ent → List (Nat × Nat)
  | [] => spans
  | e :: t =>
    if overlapsAny spans e.startChar e.endChar then resolveSpans spans t
    else resolveSpans (spans ++ [(e.startChar, e.endChar)]) t

/-- The (surface, placeholder) rewrite pairs of a run of accepted spans,
numbered from `n + 1` by the global occurrence counter. -/
def numberFrom (n : Nat) : List Ent → List (Str × Str)
  | [] => []
  | e :: t => (e.text, placeholder e.label (n + 1)) :: numberFrom (n + 1) t

/-- The entity-map block of a run of accepted spans, numbered from
`n + 1`. -/
def numberedMap (n : Nat) : List Ent → EntityMap
  | [] => []
  | e :: t => (placeholder e.label (n + 1), e.text) :: numberedMap (n + 1) t

/-- A key of the single-counter format `[lab_n]` for a label drawn from a
given label list (used to track which key shapes each pass has produced). -/
def PlainKey (labels : List Str) (k : Str) : Prop :=
  ∃ lab n, lab ∈ labels ∧ k = placeholder lab n

/-- A key of the sub-variant format `[lab_i_j]` with pattern index below a
bound. -/
def SubKey (lab : Str) (bound : Nat) (k : Str) : Prop :=
  ∃ i j, i < bound ∧ k = subPlaceholder lab i j

/-- Oracles for a document on which none of the regex patterns matches at
any stage of the run (concrete runs below use it only where that is the
behaviour of Python's `re` on the texts involved). -/
def noOracles : MaskOracles :=
  ⟨fun _ => [], fun _ _ => [], fun _ => [], fun _ _ => []⟩

/-! ### Elementary lemmas about `isPre`, `cat` and `replaceAll` -/

theorem cat_cons (a : Str) (l : List Str) : cat (a :: l) = a ++ cat l := rfl

theorem isPre_iff : ∀ {p t : Str}, isPre p t = true ↔ ∃ r, t = p ++ r
  | [], t => by simp [isPre]
  | _ :: _, [] => by simp [isPre]
  | a :: as, b :: bs => by
    show (a == b && isPre as bs) = true ↔ _
    simp only [Bool.and_eq_true, beq_iff_eq, isPre_iff (p := as) (t := bs)]
    constructor
    · rintro ⟨rfl, r, rfl⟩
      exact ⟨r, rfl⟩
    · rintro ⟨r, h⟩
      rw [List.cons_append] at h
      obtain ⟨rfl, rfl⟩ := List.cons.inj h
      exact ⟨rfl, r, rfl⟩

theorem isPre_length {p t : Str} (h : isPre p t = true) : p.length ≤ t.length := by
  obtain ⟨r, rfl⟩ := isPre_iff.mp h
  simp

theorem isPre_eq {p t : Str} (h : isPre p t = true) : t = p ++ t.drop p.length := by
  obtain ⟨r, rfl⟩ := isPre_iff.mp h
  rw [List.drop_left]

theorem isPre_self_append (p r : Str) : isPre p (p ++ r) = true :=
  isPre_iff.mpr ⟨r, rfl⟩

theorem repFuel_mono : ∀ (f₁ f₂ : Nat) (xs pat repl : Str), xs.length ≤ f₁ →
    xs.length ≤ f₂ → repFuel f₁ xs pat repl = repFuel f₂ xs pat repl := by
  intro f₁
  induction f₁ with
  | zero =>
    intro f₂ xs pat repl h1 _
    have hxs : xs = [] := List.eq_nil_of_length_eq_zero (Nat.le_zero.mp h1)
    subst hxs
    cases pat <;> cases f₂ <;> rfl
  | succ f ih =>
    intro f₂ xs pat repl h1 h2
    cases pat with
    | nil => cases f₂ <;> rfl
    | cons p ps =>
      cases xs with
      | nil => cases f₂ <;> rfl
      | cons c t =>
        cases f₂ with
        | zero => simp at h2
        | succ f₂' =>
          simp only [List.length_cons, Nat.add_le_add_iff_right] at h1 h2
          show (if isPre (p :: ps) (c :: t) then
              repl ++ repFuel f (t.drop ps.length) (p :: ps) repl
            else c :: repFuel f t (p :: ps) repl) = (if isPre (p :: ps) (c :: t) then
              repl ++ repFuel f₂' (t.drop ps.length) (p :: ps) repl
            else c :: repFuel f₂' t (p :: ps) repl)
          by_cases hp : isPre (p :: ps) (c :: t) = true
          · rw [if_pos hp, if_pos hp]
            have hd : (t.drop ps.length).length ≤ t.length := by
              simp [List.length_drop]
            exact congrArg _ (ih f₂' _ _ repl (le_trans hd h1) (le_trans hd h2))
          · rw [if_neg hp, if_neg hp]
            exact congrArg _ (ih f₂' _ _ repl h1 h2)

theorem replaceAll_nil_pat (xs repl : Str) :
    replaceAll xs [] repl = repl ++ cat (xs.map (fun c => c :: repl)) := by
  cases xs <;> rfl

theorem replaceAll_nil (p : Char) (ps repl : Str) :
    replaceAll [] (p :: ps) repl = [] := rfl

theorem replaceAll_cons (c : Char) (t : Str) (p : Char) (ps repl : Str) :
    replaceAll (c :: t) (p :: ps) repl = (if isPre (p :: ps) (c :: t) then
        repl ++ replaceAll (t.drop ps.length) (p :: ps) repl
      else c :: replaceAll t (p :: ps) repl) := by
  show (if isPre (p :: ps) (c :: t) then
      repl ++ repFuel t.length (t.drop ps.length) (p :: ps) repl
    else c :: repFuel t.length t (p :: ps) repl) = _
  by_cases hp : isPre (p :: ps) (c :: t) = true
  · rw [if_pos hp, if_pos hp]
    unfold replaceAll
    rw [repFuel_mono t.length (t.drop ps.length).length _ _ repl
      (by simp [List.length_drop]) (le_refl _)]
  · rw [if_neg hp, if_neg hp]
    rfl

theorem replaceAll_pos {p c : Char} {ps t : Str} (repl : Str)
    (h : isPre (p :: ps) (c :: t) = true) :
    replaceAll (c :: t) (p :: ps) repl
      = repl ++ replaceAll (t.drop ps.length) (p :: ps) repl := by
  rw [replaceAll_cons, if_pos h]

theorem replaceAll_neg {p c : Char} {ps t : Str} (repl : Str)
    (h : ¬ isPre (p :: ps) (c :: t) = true) :
    replaceAll (c :: t) (p :: ps) repl = c :: replaceAll t (p :: ps) repl := by
  rw [replaceAll_cons, if_neg h]

/-! ### The `Occurs` relation -/

theorem occurs_nil (t : Str) : Occurs [] t := ⟨t, [], by simp⟩

theorem occurs_refl (t : Str) : Occurs t t := ⟨[], [], by simp⟩

theorem occurs_append_left {s t : Str} (u : Str) (h : Occurs s t) :
    Occurs s (u ++ t) := by
  obtain ⟨a, b, rfl⟩ := h
  exact ⟨u ++ a, b, by simp⟩

theorem occurs_append_right {s t : Str} (u : Str) (h : Occurs s t) :
    Occurs s (t ++ u) := by
  obtain ⟨a, b, rfl⟩ := h
  exact ⟨a, b ++ u, by simp⟩

theorem occurs_trans {s t u : Str} (h1 : Occurs s t) (h2 : Occurs t u) :
    Occurs s u := by
  obtain ⟨a, b, rfl⟩ := h1
  obtain ⟨c, d, rfl⟩ := h2
  exact ⟨c ++ a, b ++ d, by simp⟩

theorem occurs_length {s t : Str} (h : Occurs s t) : s.length ≤ t.length := by
  obtain ⟨a, b, rfl⟩ := h
  simp
  omega

theorem occurs_mem {s t : Str} (h : Occurs s t) {c : Char} (hc : c ∈ s) :
    c ∈ t := by
  obtain ⟨a, b, rfl⟩ := h
  simp [hc]

theorem not_occurs_ne_nil {s t : Str} (h : ¬ Occurs s t) : s ≠ [] :=
  fun hs => h (hs ▸ occurs_nil t)

theorem hasSub_iff : ∀ {t s : Str}, hasSub t s = true ↔ Occurs s t
  | [], s => by
    show isPre s [] = true ↔ _
    rw [isPre_iff]
    constructor
    · rintro ⟨r, hr⟩
      have hs : s = [] := by
        cases s with
        | nil => rfl
        | cons c cs => simp at hr
      exact hs ▸ occurs_nil []
    · rintro ⟨a, b, hab⟩
      have h3 : s = [] := by
        cases a <;> cases s <;> simp_all
      exact ⟨[], by simp [h3]⟩
  | c :: t, s => by
    show (isPre s (c :: t) || hasSub t s) = true ↔ _
    simp only [Bool.or_eq_true, isPre_iff, hasSub_iff (t := t) (s := s)]
    constructor
    · rintro (⟨r, hr⟩ | h)
      · exact ⟨[], r, by simp [hr]⟩
      · exact occurs_append_left [c] h
    · rintro ⟨a, b, hab⟩
      cases a with
      | nil => exact Or.inl ⟨b, by simpa using hab⟩
      | cons d a2 =>
        refine Or.inr ⟨a2, b, ?_⟩
        have h4 : c :: t = d :: (a2 ++ s ++ b) := by simpa using hab
        exact (List.cons.inj h4).2

theorem not_occurs_iff {s t : Str} : hasSub t s = false ↔ ¬ Occurs s t := by
  rw [← hasSub_iff]
  cases hasSub t s <;> simp

/-! ### Append dissection helpers -/

theorem append_eq_of_le : ∀ {x b s r : Str}, x ++ b = s ++ r →
    s.length ≤ x.length → ∃ x2, x = s ++ x2
  | x, b, [], r => fun _ _ => ⟨x, rfl⟩
  | [], b, sc :: s2, r => by
    intro _ hl
    simp at hl
  | xc :: x2, b, sc :: s2, r => by
    intro h hl
    rw [List.cons_append, List.cons_append] at h
    obtain ⟨rfl, h2⟩ := List.cons.inj h
    simp only [List.length_cons, Nat.add_le_add_iff_right] at hl
    obtain ⟨x3, hx3⟩ := append_eq_of_le h2 hl
    exact ⟨x3, by rw [List.cons_append, hx3]⟩

theorem append_eq_of_ge {x b s r : Str} (h : x ++ b = s ++ r)
    (hl : x.length ≤ s.length) : ∃ s2, s = x ++ s2 :=
  append_eq_of_le h.symm hl

/-- Cutting two append decompositions at the first occurrence of a marker
character that appears in neither left part. -/
theorem append_cons_inj {c : Char} : ∀ {a a2 b b2 : Str}, c ∉ a → c ∉ a2 →
    a ++ c :: b = a2 ++ c :: b2 → a = a2 ∧ b = b2
  | [], [], b, b2 => by
    intro _ _ h
    simpa using h
  | [], d :: t2, b, b2 => by
    intro _ h2 h
    rw [List.nil_append, List.cons_append] at h
    obtain ⟨rfl, -⟩ := List.cons.inj h
    exact absurd (List.mem_cons_self _ _) h2
  | d :: t, [], b, b2 => by
    intro h1 _ h
    rw [List.nil_append, List.cons_append] at h
    obtain ⟨rfl, -⟩ := List.cons.inj h
    exact absurd (List.mem_cons_self _ _) h1
  | d :: t, d2 :: t2, b, b2 => by
    intro h1 h2 h
    rw [List.cons_append, List.cons_append] at h
    obtain ⟨rfl, h3⟩ := List.cons.inj h
    have h4 := append_cons_inj (List.not_mem_of_not_mem_cons h1)
      (List.not_mem_of_not_mem_cons h2) h3
    exact ⟨by rw [h4.1], h4.2⟩

/-! ### Decimal digit strings -/

theorem digRev_lt : ∀ (fuel n : Nat), ∀ d ∈ digRev fuel n, d < 10 := by
  intro fuel
  induction fuel with
  | zero => intro n d hd; simp [digRev] at hd
  | succ f ih =>
    intro n d hd
    cases n with
    | zero => simp [digRev] at hd
    | succ m =>
      rw [digRev] at hd
      rcases List.mem_cons.mp hd with h | h
      · rw [h]; exact Nat.mod_lt _ (by omega)
      · exact ih _ _ h

theorem digRev_unDig : ∀ (fuel n : Nat), n ≤ fuel → unDig (digRev fuel n) = n := by
  intro fuel
  induction fuel with
  | zero =>
    intro n hn
    interval_cases n
    rfl
  | succ f ih =>
    intro n hn
    cases n with
    | zero => rfl
    | succ m =>
      rw [digRev, unDig, ih ((m + 1) / 10) (by omega)]
      omega

theorem digChar_inj {a b : Nat} (ha : a < 10) (hb : b < 10)
    (h : digChar a = digChar b) : a = b := by
  interval_cases a <;> interval_cases b <;> simp_all [digChar]

theorem digChar_mem {d : Nat} (hd : d < 10) :
    digChar d ∈ ['0', '1', '2', '3', '4', '5', '6', '7', '8', '9'] := by
  interval_cases d <;> simp [digChar]

theorem digStr_chars {n : Nat} : ∀ c ∈ digStr n,
    c ∈ ['0', '1', '2', '3', '4', '5', '6', '7', '8', '9'] := by
  intro c hc
  rw [digStr] at hc
  by_cases hn : n = 0
  · rw [if_pos hn] at hc
    simp at hc
    simp [hc]
  · rw [if_neg hn] at hc
    rw [List.mem_reverse] at hc
    obtain ⟨d, hd, rfl⟩ := List.mem_map.mp hc
    exact digChar_mem (digRev_lt _ _ _ hd)

theorem digStr_no_underscore {n : Nat} : '_' ∉ digStr n := by
  intro h
  have := digStr_chars _ h
  simp at this

theorem digStr_no_lb {n : Nat} : '[' ∉ digStr n := by
  intro h
  have := digStr_chars _ h
  simp at this

theorem digStr_no_rb {n : Nat} : ']' ∉ digStr n := by
  intro h
  have := digStr_chars _ h
  simp at this

theorem digStr_ne_nil {n : Nat} : digStr n ≠ [] := by
  rw [digStr]
  by_cases hn : n = 0
  · rw [if_pos hn]; simp
  · rw [if_neg hn]
    simp only [ne_eq, List.reverse_eq_nil_iff, List.map_eq_nil_iff]
    cases n with
    | zero => exact absurd rfl hn
    | succ m => simp [digRev]

theorem map_digChar_inj : ∀ {l₁ l₂ : List Nat}, (∀ d ∈ l₁, d < 10) →
    (∀ d ∈ l₂, d < 10) → l₁.map digChar = l₂.map digChar → l₁ = l₂
  | [], [], _, _, _ => rfl
  | [], d :: t, _, _, h => by simp at h
  | d :: t, [], _, _, h => by simp at h
  | d :: t, d2 :: t2, h1, h2, h => by
    rw [List.map_cons, List.map_cons] at h
    obtain ⟨hh, ht⟩ := List.cons.inj h
    have hd := digChar_inj (h1 d (by simp)) (h2 d2 (by simp)) hh
    have := map_digChar_inj (fun x hx => h1 x (by simp [hx]))
      (fun x hx => h2 x (by simp [hx])) ht
    rw [hd, this]

theorem digStr_inj {n m : Nat} (h : digStr n = digStr m) : n = m := by
  by_cases hn : n = 0 <;> by_cases hm : m = 0
  · omega
  · rw [digStr, digStr, if_pos hn, if_neg hm] at h
    have : (digRev m m).map digChar = [0].map digChar := by
      have := congrArg List.reverse h
      simpa [digChar] using this.symm
    have h0 := map_digChar_inj (fun d hd => digRev_lt _ _ _ hd)
      (by intro d hd; simp at hd; omega) this
    have := digRev_unDig m m (le_refl m)
    rw [h0] at this
    simp [unDig] at this
    omega
  · rw [digStr, digStr, if_neg hn, if_pos hm] at h
    have : (digRev n n).map digChar = [0].map digChar := by
      have := congrArg List.reverse h
      simpa [digChar] using this
    have h0 := map_digChar_inj (fun d hd => digRev_lt _ _ _ hd)
      (by intro d hd; simp at hd; omega) this
    have := digRev_unDig n n (le_refl n)
    rw [h0] at this
    simp [unDig] at this
    omega
  · rw [digStr, digStr, if_neg hn, if_neg hm] at h
    have h1 := congrArg List.reverse h
    rw [List.reverse_reverse, List.reverse_reverse] at h1
    have h0 := map_digChar_inj (fun d hd => digRev_lt _ _ _ hd)
      (fun d hd => digRev_lt _ _ _ hd) h1
    have hn' := digRev_unDig n n (le_refl n)
    have hm' := digRev_unDig m m (le_refl m)
    rw [h0] at hn'
    rw [hm'] at hn'
    exact hn'.symm

theorem append_inj_right : ∀ {l s t : Str}, l ++ s = l ++ t → s = t
  | [], _, _, h => h
  | _ :: _, _, _, h => append_inj_right (List.cons.inj h).2

theorem drop_append_of_le : ∀ {n : Nat} {l1 : Str} (l2 : Str), n ≤ l1.length →
    (l1 ++ l2).drop n = l1.drop n ++ l2
  | 0, _, _, _ => by simp
  | n + 1, [], l2, h => by simp at h
  | n + 1, c :: t, l2, h => by
    rw [List.cons_append, List.drop_succ_cons, List.drop_succ_cons]
    exact drop_append_of_le l2 (by simpa using h)

/-! ### Splitting `replaceAll` along a concatenation -/

/-- When no occurrence of the pattern starts inside `a`, the rewrite walks
straight across `a`. -/
theorem replaceAll_passthrough : ∀ (a : Str) {b p : Str} (repl : Str),
    (∀ k, k < a.length → isPre p (a.drop k ++ b) = false) →
    replaceAll (a ++ b) p repl = a ++ replaceAll b p repl := by
  intro a
  induction a with
  | nil => intro b p repl _; simp
  | cons c a2 ih =>
    intro b p repl h
    cases p with
    | nil =>
      have h0 := h 0 (by simp)
      simp [isPre] at h0
    | cons p ps =>
      have h0 := h 0 (by simp)
      rw [List.drop_zero] at h0
      have hne : ¬ isPre (p :: ps) (c :: (a2 ++ b)) = true := by
        rw [← List.cons_append, h0]
        simp
      rw [List.cons_append, replaceAll_neg repl hne, ih repl (fun k hk => by
        have hh := h (k + 1) (by simp; omega)
        rwa [List.drop_succ_cons] at hh), List.cons_append]

/-- When every occurrence of the pattern that starts inside `a` also ends
inside `a`, the rewrite splits at the boundary. -/
theorem replaceAll_split {b : Str} (p : Char) (ps repl : Str) :
    ∀ (n : Nat) (a : Str), a.length ≤ n →
    (∀ k, k < a.length → isPre (p :: ps) (a.drop k ++ b) = true →
      isPre (p :: ps) (a.drop k) = true) →
    replaceAll (a ++ b) (p :: ps) repl
      = replaceAll a (p :: ps) repl ++ replaceAll b (p :: ps) repl := by
  intro n
  induction n with
  | zero =>
    intro a ha _
    have : a = [] := List.eq_nil_of_length_eq_zero (Nat.le_zero.mp ha)
    subst this
    simp [replaceAll_nil]
  | succ n ih =>
    intro a ha h
    cases a with
    | nil => simp [replaceAll_nil]
    | cons c a2 =>
      simp only [List.length_cons, Nat.add_le_add_iff_right] at ha
      by_cases hp : isPre (p :: ps) (c :: (a2 ++ b)) = true
      · have hpa : isPre (p :: ps) (c :: a2) = true := by
          have := h 0 (by simp)
          rw [List.drop_zero] at this
          exact this hp
        rw [List.cons_append, replaceAll_pos repl hp, replaceAll_pos repl hpa]
        have hlen : ps.length ≤ a2.length := by
          have := isPre_length hpa
          simpa using this
        have hdrop : (a2 ++ b).drop ps.length = a2.drop ps.length ++ b :=
          drop_append_of_le b hlen
        rw [hdrop, ih (a2.drop ps.length) (by rw [List.length_drop]; omega)
          (fun k hk hpre => by
            rw [List.length_drop] at hk
            have h2 := h (1 + ps.length + k) (by simp; omega)
            have hx : (c :: a2).drop (1 + ps.length + k)
                = (a2.drop ps.length).drop k := by
              have : 1 + ps.length + k = (k + ps.length) + 1 := by omega
              rw [this, List.drop_succ_cons, List.drop_drop, Nat.add_comm k ps.length]
            rw [hx] at h2
            exact h2 hpre), List.append_assoc]
      · have hpa : ¬ isPre (p :: ps) (c :: a2) = true := by
          intro hc
          apply hp
          obtain ⟨r, hr⟩ := isPre_iff.mp hc
          rw [show c :: (a2 ++ b) = (c :: a2) ++ b from rfl, hr, List.append_assoc]
          exact isPre_self_append _ _
        rw [List.cons_append, replaceAll_neg repl hp, replaceAll_neg repl hpa,
          ih a2 ha (fun k hk hpre => by
            have h2 := h (k + 1) (by simp; omega)
            rw [List.drop_succ_cons] at h2
            exact h2 hpre), List.cons_append]

/-- The rewrite fires at an initial literal occurrence of the pattern. -/
theorem replaceAll_head_match {s : Str} (hs : s ≠ []) (b repl : Str) :
    replaceAll (s ++ b) s repl = repl ++ replaceAll b s repl := by
  cases s with
  | nil => exact absurd rfl hs
  | cons p ps =>
    rw [List.cons_append,
      replaceAll_pos repl (by rw [← List.cons_append]; exact isPre_self_append _ _)]
    congr 1
    rw [drop_append_of_le b (le_refl ps.length)]
    simp

/-- A text without an occurrence of the pattern is left unchanged. -/
theorem replaceAll_of_not_occurs {t s repl : Str} (h : ¬ Occurs s t) :
    replaceAll t s repl = t := by
  have hs : s ≠ [] := not_occurs_ne_nil h
  have h2 := replaceAll_passthrough t (b := []) (p := s) repl (fun k hk => by
    by_contra hcon
    rw [Bool.not_eq_false] at hcon
    rw [List.append_nil] at hcon
    obtain ⟨r, hr⟩ := isPre_iff.mp hcon
    refine h ⟨t.take k, r, ?_⟩
    conv_lhs => rw [← List.take_append_drop k t, hr]
    rw [List.append_assoc])
  rw [List.append_nil] at h2
  rw [h2]
  cases s with
  | nil => exact absurd rfl hs
  | cons p ps => rw [replaceAll_nil]; simp

/-! ### Bracket-shape arguments -/

theorem isPh_ne_nil {p : Str} (hp : IsPh p) : p ≠ [] := by
  obtain ⟨body, rfl, -, -⟩ := hp
  simp

/-- Two bracketed tokens with bracket-free bodies: one occurring inside the
other forces them equal. -/
theorem isPh_occurs_eq {p q : Str} (hp : IsPh p) (hq : IsPh q)
    (h : Occurs p q) : p = q := by
  obtain ⟨bp, rfl, hbp1, hbp2⟩ := hp
  obtain ⟨bq, hqe, hbq1, hbq2⟩ := hq
  obtain ⟨a, b, hab⟩ := h
  cases a with
  | nil =>
    rw [List.nil_append, hqe] at hab
    have h2 : bq ++ ']' :: ([] : Str) = bp ++ ']' :: b := by
      have h3 : '[' :: (bq ++ ']' :: ([] : Str)) = '[' :: (bp ++ ']' :: b) := by
        simpa [List.append_assoc] using hab
      exact (List.cons.inj h3).2
    obtain ⟨hb, -⟩ := append_cons_inj hbq2 hbp2 h2
    rw [hqe, hb]
  | cons d a2 =>
    rw [hqe] at hab
    have h3 : '[' :: (bq ++ [']']) = d :: (a2 ++ ('[' :: bp ++ [']']) ++ b) := by
      simpa [List.append_assoc] using hab
    obtain ⟨-, h4⟩ := List.cons.inj h3
    have hmem : '[' ∈ bq ++ [']'] := by
      rw [h4]
      simp
    rcases List.mem_append.mp hmem with hmm | hmm
    · exact absurd hmm hbq1
    · simp at hmm

/-- The rewrite walks across a string ending in a character the pattern
does not contain and not containing the pattern. -/
theorem passthrough_no_last {q b s : Str} {c : Char} (repl : Str) (q0 : Str)
    (hq : q = q0 ++ [c]) (hno : ¬ Occurs s q) (hcs : c ∉ s) :
    replaceAll (q ++ b) s repl = q ++ replaceAll b s repl := by
  apply replaceAll_passthrough
  intro k hk
  by_contra hcon
  rw [Bool.not_eq_false] at hcon
  obtain ⟨r, hr⟩ := isPre_iff.mp hcon
  by_cases hl : s.length ≤ (q.drop k).length
  · obtain ⟨x2, hx2⟩ := append_eq_of_le hr hl
    refine hno ⟨q.take k, x2, ?_⟩
    conv_lhs => rw [← List.take_append_drop k q, hx2]
    rw [List.append_assoc]
  · obtain ⟨s2, hs2⟩ := append_eq_of_ge hr (by omega)
    apply hcs
    rw [hs2]
    apply List.mem_append_left
    have hkq : k ≤ q0.length := by
      rw [hq] at hk
      simp at hk
      omega
    have : q.drop k = q0.drop k ++ [c] := by
      rw [hq, drop_append_of_le [c] hkq]
    rw [this]
    simp

/-- The rewrite for one placeholder walks across a different placeholder. -/
theorem passthrough_ph_ph {q p : Str} (hq : IsPh q) (hp : IsPh p)
    (hne : p ≠ q) (b v : Str) :
    replaceAll (q ++ b) p v = q ++ replaceAll b p v := by
  obtain ⟨bq, hqe, hbq1, hbq2⟩ := hq
  obtain ⟨bp, hpe, hbp1, hbp2⟩ := hp
  apply replaceAll_passthrough
  intro k hk
  by_contra hcon
  rw [Bool.not_eq_false] at hcon
  obtain ⟨r, hr⟩ := isPre_iff.mp hcon
  cases k with
  | zero =>
    rw [List.drop_zero, hqe, hpe] at hr
    have h2 : bq ++ ']' :: b = bp ++ ']' :: r := by
      have h3 : '[' :: (bq ++ ']' :: b) = '[' :: (bp ++ ']' :: r) := by
        simpa [List.append_assoc] using hr
      exact (List.cons.inj h3).2
    obtain ⟨heq, -⟩ := append_cons_inj hbq2 hbp2 h2
    exact hne (by rw [hqe, hpe, heq])
  | succ k2 =>
    rw [hqe, List.cons_append, List.drop_succ_cons] at hr
    have hne2 : (bq ++ [']']).drop k2 ≠ [] := by
      intro h0
      have hl0 := congrArg List.length h0
      rw [List.length_drop] at hl0
      rw [hqe] at hk
      simp at hk hl0
      omega
    obtain ⟨d, z, hdz⟩ := List.exists_cons_of_ne_nil hne2
    rw [hdz, hpe] at hr
    have hd : d = '[' := by
      have h3 : d :: (z ++ b) = '[' :: (bp ++ ']' :: r) := by
        simpa [List.append_assoc] using hr
      exact (List.cons.inj h3).1
    have hmem : d ∈ bq ++ [']'] :=
      List.mem_of_mem_drop (hdz ▸ List.mem_cons_self d z)
    rw [hd] at hmem
    rcases List.mem_append.mp hmem with hmm | hmm
    · exact absurd hmm hbq1
    · simp at hmm

/-- The rewrite for a placeholder absent from the document walks across a
substring of the document, provided what follows is empty or starts a
placeholder. -/
theorem passthrough_raw {x d p : Str} (hx : Occurs x d) (hpd : ¬ Occurs p d)
    (hp : IsPh p) {b : Str} (hb : b = [] ∨ ∃ b2, b = '[' :: b2) (v : Str) :
    replaceAll (x ++ b) p v = x ++ replaceAll b p v := by
  obtain ⟨bp, hpe, hbp1, hbp2⟩ := hp
  apply replaceAll_passthrough
  intro k hk
  by_contra hcon
  rw [Bool.not_eq_false] at hcon
  obtain ⟨r, hr⟩ := isPre_iff.mp hcon
  by_cases hl : p.length ≤ (x.drop k).length
  · obtain ⟨x2, hx2⟩ := append_eq_of_le hr hl
    apply hpd
    apply occurs_trans _ hx
    refine ⟨x.take k, x2, ?_⟩
    conv_lhs => rw [← List.take_append_drop k x, hx2]
    rw [List.append_assoc]
  · obtain ⟨s2, hs2⟩ := append_eq_of_ge hr (by omega)
    have hs2ne : s2 ≠ [] := by
      intro h0
      rw [h0, List.append_nil] at hs2
      apply hl
      rw [hs2]
    have hb2 : b = s2 ++ r := by
      rw [hs2, List.append_assoc] at hr
      exact append_inj_right hr
    rcases hb with rfl | ⟨b2, rfl⟩
    · exact hs2ne (List.append_eq_nil.mp hb2.symm).1
    · obtain ⟨dd, z, rfl⟩ := List.exists_cons_of_ne_nil hs2ne
      have hdd : dd = '[' := by
        have h3 : '[' :: b2 = dd :: (z ++ r) := by simpa using hb2
        exact ((List.cons.inj h3).1).symm
      have hxk : x.drop k ≠ [] := by
        intro h0
        have hl0 := congrArg List.length h0
        rw [List.length_drop] at hl0
        simp at hl0
        omega
      obtain ⟨e, w, hew⟩ := List.exists_cons_of_ne_nil hxk
      rw [hew, hdd, hpe] at hs2
      have h3 : '[' :: (bp ++ [']']) = e :: (w ++ '[' :: z) := by
        simpa [List.append_assoc] using hs2
      obtain ⟨-, h4⟩ := List.cons.inj h3
      have hmem : '[' ∈ bp ++ [']'] := by
        rw [h4]
        simp
      rcases List.mem_append.mp hmem with hmm | hmm
      · exact absurd hmm hbp1
      · simp at hmm

/-- Splitting the rewrite at a boundary that is empty or starts a
placeholder, for a bracket-free nonempty pattern. -/
theorem split_at_bracket {a b s : Str} (repl : Str) (hs : s ≠ [])
    (hlb : '[' ∉ s) (hb : b = [] ∨ ∃ b2, b = '[' :: b2) :
    replaceAll (a ++ b) s repl = replaceAll a s repl ++ replaceAll b s repl := by
  cases s with
  | nil => exact absurd rfl hs
  | cons p ps =>
    apply replaceAll_split p ps repl a.length a (le_refl _)
    intro k hk hpre
    obtain ⟨r, hr⟩ := isPre_iff.mp hpre
    by_cases hl : (p :: ps).length ≤ (a.drop k).length
    · obtain ⟨x2, hx2⟩ := append_eq_of_le hr hl
      rw [hx2]
      exact isPre_self_append _ _
    · obtain ⟨s2, hs2⟩ := append_eq_of_ge hr (by omega)
      have hs2ne : s2 ≠ [] := by
        intro h0
        rw [h0, List.append_nil] at hs2
        apply hl
        rw [hs2]
      have hb2 : b = s2 ++ r := by
        rw [hs2, List.append_assoc] at hr
        exact append_inj_right hr
      rcases hb with rfl | ⟨b2, rfl⟩
      · exact absurd (List.append_eq_nil.mp hb2.symm).1 hs2ne
      · obtain ⟨dd, z, rfl⟩ := List.exists_cons_of_ne_nil hs2ne
        have hdd : dd = '[' := by
          have h3 : '[' :: b2 = dd :: (z ++ r) := by simpa using hb2
          exact ((List.cons.inj h3).1).symm
        exfalso
        apply hlb
        rw [hs2, hdd]
        simp

/-! ### The greedy occurrence split and the flattenings -/

theorem osFuel_replace : ∀ (fuel : Nat) (xs : Str) (p : Char) (ps repl : Str),
    repFuel fuel xs (p :: ps) repl
      = (osFuel fuel xs (p :: ps)).1
        ++ cat ((osFuel fuel xs (p :: ps)).2.map (fun y => repl ++ y)) := by
  intro fuel
  induction fuel with
  | zero =>
    intro xs p ps repl
    show xs = xs ++ cat ([].map (fun y => repl ++ y))
    simp [cat]
  | succ f ih =>
    intro xs p ps repl
    cases xs with
    | nil =>
      show ([] : Str) = [] ++ cat ([].map (fun y => repl ++ y))
      simp [cat]
    | cons c t =>
      have hL : repFuel (f + 1) (c :: t) (p :: ps) repl
          = (if isPre (p :: ps) (c :: t) then
              repl ++ repFuel f (t.drop ps.length) (p :: ps) repl
            else c :: repFuel f t (p :: ps) repl) := rfl
      have hR : osFuel (f + 1) (c :: t) (p :: ps)
          = (if isPre (p :: ps) (c :: t) then
              ([], (osFuel f (t.drop ps.length) (p :: ps)).1 ::
                (osFuel f (t.drop ps.length) (p :: ps)).2)
            else (c :: (osFuel f t (p :: ps)).1, (osFuel f t (p :: ps)).2)) := rfl
      rw [hL, hR]
      by_cases hp : isPre (p :: ps) (c :: t) = true
      · rw [if_pos hp, if_pos hp, ih]
        simp [cat_cons, List.append_assoc]
      · rw [if_neg hp, if_neg hp, ih]
        simp

theorem osFuel_join : ∀ (fuel : Nat) (xs : Str) (p : Char) (ps : Str),
    (osFuel fuel xs (p :: ps)).1
      ++ cat ((osFuel fuel xs (p :: ps)).2.map (fun y => (p :: ps) ++ y)) = xs := by
  intro fuel
  induction fuel with
  | zero =>
    intro xs p ps
    show xs ++ cat ([].map (fun y => (p :: ps) ++ y)) = xs
    simp [cat]
  | succ f ih =>
    intro xs p ps
    cases xs with
    | nil =>
      show ([] : Str) ++ cat ([].map (fun y => (p :: ps) ++ y)) = []
      simp [cat]
    | cons c t =>
      have hR : osFuel (f + 1) (c :: t) (p :: ps)
          = (if isPre (p :: ps) (c :: t) then
              ([], (osFuel f (t.drop ps.length) (p :: ps)).1 ::
                (osFuel f (t.drop ps.length) (p :: ps)).2)
            else (c :: (osFuel f t (p :: ps)).1, (osFuel f t (p :: ps)).2)) := rfl
      rw [hR]
      by_cases hp : isPre (p :: ps) (c :: t) = true
      · rw [if_pos hp]
        have he := isPre_eq hp
        rw [List.length_cons, List.drop_succ_cons] at he
        show ([] : Str) ++ cat (((osFuel f (t.drop ps.length) (p :: ps)).1 ::
          (osFuel f (t.drop ps.length) (p :: ps)).2).map (fun y => (p :: ps) ++ y)) = c :: t
        rw [List.map_cons, cat_cons, List.nil_append, List.append_assoc, ih]
        exact he.symm
      · rw [if_neg hp]
        show (c :: (osFuel f t (p :: ps)).1) ++ _ = c :: t
        rw [List.cons_append]
        exact congrArg (c :: ·) (ih t p ps)

theorem replaceAll_eq_occSplit {xs s : Str} (hs : s ≠ []) (repl : Str) :
    replaceAll xs s repl = (occSplit xs s).1
      ++ cat ((occSplit xs s).2.map (fun y => repl ++ y)) := by
  cases s with
  | nil => exact absurd rfl hs
  | cons p ps => exact osFuel_replace _ _ _ _ _

theorem occSplit_join {xs s : Str} (hs : s ≠ []) :
    (occSplit xs s).1 ++ cat ((occSplit xs s).2.map (fun y => s ++ y)) = xs := by
  cases s with
  | nil => exact absurd rfl hs
  | cons p ps => exact osFuel_join _ _ _ _

theorem flatM_cons (e : Marker × Str) (t : MRest) :
    flatM (e :: t) = e.1.2 ++ e.2 ++ flatM t := rfl

theorem flatO_cons (e : Marker × Str) (t : MRest) :
    flatO (e :: t) = e.1.1 ++ e.2 ++ flatO t := rfl

theorem flatM_append : ∀ (r1 r2 : MRest), flatM (r1 ++ r2) = flatM r1 ++ flatM r2
  | [], r2 => rfl
  | e :: t, r2 => by
    rw [List.cons_append, flatM_cons, flatM_cons, flatM_append t r2,
      List.append_assoc, List.append_assoc, List.append_assoc]

theorem flatO_append : ∀ (r1 r2 : MRest), flatO (r1 ++ r2) = flatO r1 ++ flatO r2
  | [], r2 => rfl
  | e :: t, r2 => by
    rw [List.cons_append, flatO_cons, flatO_cons, flatO_append t r2,
      List.append_assoc, List.append_assoc, List.append_assoc]

theorem flatM_map_pairs (s p : Str) : ∀ ys : List Str,
    flatM (ys.map (fun y => ((s, p), y))) = cat (ys.map (fun y => p ++ y))
  | [] => rfl
  | y :: ys => by
    rw [List.map_cons, flatM_cons, List.map_cons, cat_cons,
      flatM_map_pairs s p ys, List.append_assoc]

theorem flatO_map_pairs (s p : Str) : ∀ ys : List Str,
    flatO (ys.map (fun y => ((s, p), y))) = cat (ys.map (fun y => s ++ y))
  | [] => rfl
  | y :: ys => by
    rw [List.map_cons, flatO_cons, List.map_cons, cat_cons,
      flatO_map_pairs s p ys, List.append_assoc]

theorem flatM_shape {r : MRest} (h : ∀ e ∈ r, IsPh e.1.2) :
    flatM r = [] ∨ ∃ b2, flatM r = '[' :: b2 := by
  cases r with
  | nil => exact Or.inl rfl
  | cons e t =>
    obtain ⟨body, hbody, -, -⟩ := h e (by simp)
    refine Or.inr ⟨body ++ [']'] ++ e.2 ++ flatM t, ?_⟩
    rw [flatM_cons, hbody]
    simp [List.append_assoc]

/-! ### Commuting one rewrite with the masked-text structure -/

/-- Masking one surface commutes with flattening: replacing `s` by `p` in
the flattened tail equals flattening the structurally masked tail. -/
theorem maskRest_flatM {s : Str} (p : Str) (hs : s ≠ []) (hlb : '[' ∉ s)
    (hrb : ']' ∉ s) :
    ∀ r : MRest, (∀ e ∈ r, IsPh e.1.2 ∧ ¬ Occurs s e.1.2) →
      replaceAll (flatM r) s p = flatM (maskRest s p r) := by
  intro r
  induction r with
  | nil =>
    intro _
    cases s with
    | nil => exact absurd rfl hs
    | cons c cs => rfl
  | cons e t ih =>
    intro h
    obtain ⟨hq, hno⟩ := h e (by simp)
    have h1 : flatM (e :: t) = e.1.2 ++ (e.2 ++ flatM t) := by
      rw [flatM_cons, List.append_assoc]
    obtain ⟨body, hbody, -, -⟩ := hq
    rw [h1, passthrough_no_last p ('[' :: body) hbody hno (fun hc => hrb hc),
      split_at_bracket p hs hlb (flatM_shape (fun e2 he2 => (h e2 (by simp [he2])).1)),
      ih (fun e2 he2 => h e2 (by simp [he2])),
      replaceAll_eq_occSplit hs p]
    show _ = flatM ((e.1, (occSplit e.2 s).1) ::
      ((occSplit e.2 s).2.map (fun y => ((s, p), y)) ++ maskRest s p t))
    rw [flatM_cons, flatM_append, flatM_map_pairs]
    simp [List.append_assoc]

/-- Masking one surface does not change the original-text reading. -/
theorem maskRest_flatO {s : Str} (p : Str) (hs : s ≠ []) :
    ∀ r : MRest, flatO (maskRest s p r) = flatO r := by
  intro r
  induction r with
  | nil => rfl
  | cons e t ih =>
    show flatO ((e.1, (occSplit e.2 s).1) ::
      ((occSplit e.2 s).2.map (fun y => ((s, p), y)) ++ maskRest s p t)) = _
    rw [flatO_cons, flatO_append, flatO_map_pairs, ih, flatO_cons]
    have hj := @occSplit_join e.2 _ hs
    conv_rhs => rw [← hj]
    simp [List.append_assoc]

/-- Masking one surface only adds markers for that pair. -/
theorem maskRest_markers {s p : Str} :
    ∀ (r : MRest) (e2 : Marker × Str), e2 ∈ maskRest s p r →
      e2.1 = (s, p) ∨ ∃ x, (e2.1, x) ∈ r := by
  intro r
  induction r with
  | nil => intro e2 h; simp [maskRest] at h
  | cons e t ih =>
    intro e2 h
    show _ ∨ ∃ x, (e2.1, x) ∈ e :: t
    rw [show maskRest s p (e :: t) = (e.1, (occSplit e.2 s).1) ::
      ((occSplit e.2 s).2.map (fun y => ((s, p), y)) ++ maskRest s p t) from rfl] at h
    rcases List.mem_cons.mp h with h | h
    · right
      refine ⟨e.2, ?_⟩
      rw [h]
      show (e.1, e.2) ∈ e :: t
      exact List.mem_cons_self e t
    · rcases List.mem_append.mp h with h | h
      · obtain ⟨y, -, hy⟩ := List.mem_map.mp h
        exact Or.inl (by rw [← hy])
      · rcases ih e2 h with h2 | ⟨x, hx⟩
        · exact Or.inl h2
        · exact Or.inr ⟨x, by simp [hx]⟩

/-- Restoring one placeholder commutes with flattening. -/
theorem unmaskRest_flatM {p v d : Str} (hp : IsPh p) (hpd : ¬ Occurs p d) :
    ∀ r : MRest, (∀ e ∈ r, IsPh e.1.2 ∧ Occurs e.2 d ∧ (e.1.2 = p → e.1.1 = v)) →
      replaceAll (flatM r) p v = (unmaskRest p r).1 ++ flatM (unmaskRest p r).2 := by
  intro r
  induction r with
  | nil =>
    intro _
    obtain ⟨body, hbody, -, -⟩ := hp
    rw [hbody]
    rfl
  | cons e t ih =>
    intro h
    obtain ⟨hq, hocc, hkey⟩ := h e (by simp)
    have hshape := flatM_shape (r := t) (fun e2 he2 => (h e2 (by simp [he2])).1)
    by_cases hep : e.1.2 = p
    · have hval : e.1.1 = v := hkey hep
      have h1 : flatM (e :: t) = p ++ (e.2 ++ flatM t) := by
        rw [flatM_cons, List.append_assoc, hep]
      rw [h1, replaceAll_head_match (isPh_ne_nil hp),
        passthrough_raw hocc hpd hp hshape v,
        ih (fun e2 he2 => h e2 (by simp [he2]))]
      have h2 : unmaskRest p (e :: t)
          = (e.1.1 ++ e.2 ++ (unmaskRest p t).1, (unmaskRest p t).2) := by
        simp [unmaskRest, hep]
      rw [h2, hval]
      simp [List.append_assoc]
    · have h1 : flatM (e :: t) = e.1.2 ++ (e.2 ++ flatM t) := by
        rw [flatM_cons, List.append_assoc]
      rw [h1, passthrough_ph_ph hq hp (fun hc => hep hc.symm) _ v,
        passthrough_raw hocc hpd hp hshape v,
        ih (fun e2 he2 => h e2 (by simp [he2]))]
      have h2 : unmaskRest p (e :: t)
          = ([], (e.1, e.2 ++ (unmaskRest p t).1) :: (unmaskRest p t).2) := by
        simp [unmaskRest, hep]
      rw [h2]
      show _ = [] ++ flatM ((e.1, e.2 ++ (unmaskRest p t).1) :: (unmaskRest p t).2)
      rw [List.nil_append, flatM_cons]
      simp [List.append_assoc]

/-- Restoring one placeholder does not change the original-text reading. -/
theorem unmaskRest_flatO (p : Str) :
    ∀ r : MRest, (unmaskRest p r).1 ++ flatO (unmaskRest p r).2 = flatO r := by
  intro r
  induction r with
  | nil => rfl
  | cons e t ih =>
    by_cases hep : e.1.2 = p
    · have h2 : unmaskRest p (e :: t)
          = (e.1.1 ++ e.2 ++ (unmaskRest p t).1, (unmaskRest p t).2) := by
        simp [unmaskRest, hep]
      rw [h2, flatO_cons]
      calc e.1.1 ++ e.2 ++ (unmaskRest p t).1 ++ flatO (unmaskRest p t).2
          = e.1.1 ++ e.2 ++ ((unmaskRest p t).1 ++ flatO (unmaskRest p t).2) := by
            simp [List.append_assoc]
        _ = e.1.1 ++ e.2 ++ flatO t := by rw [ih]
    · have h2 : unmaskRest p (e :: t)
          = ([], (e.1, e.2 ++ (unmaskRest p t).1) :: (unmaskRest p t).2) := by
        simp [unmaskRest, hep]
      rw [h2, List.nil_append, flatO_cons, flatO_cons]
      calc e.1.1 ++ (e.2 ++ (unmaskRest p t).1) ++ flatO (unmaskRest p t).2
          = e.1.1 ++ e.2 ++ ((unmaskRest p t).1 ++ flatO (unmaskRest p t).2) := by
            simp [List.append_assoc]
        _ = e.1.1 ++ e.2 ++ flatO t := by rw [ih]

/-- Restoring one placeholder only removes markers, and removes exactly
those carrying it. -/
theorem unmaskRest_markers (p : Str) :
    ∀ (r : MRest) (e2 : Marker × Str), e2 ∈ (unmaskRest p r).2 →
      (∃ x, (e2.1, x) ∈ r) ∧ e2.1.2 ≠ p := by
  intro r
  induction r with
  | nil => intro e2 h; simp [unmaskRest] at h
  | cons e t ih =>
    intro e2 h
    by_cases hep : e.1.2 = p
    · rw [show (unmaskRest p (e :: t)).2 = (unmaskRest p t).2 by
        simp [unmaskRest, hep]] at h
      obtain ⟨⟨x, hx⟩, hne⟩ := ih e2 h
      exact ⟨⟨x, by simp [hx]⟩, hne⟩
    · rw [show (unmaskRest p (e :: t)).2
        = (e.1, e.2 ++ (unmaskRest p t).1) :: (unmaskRest p t).2 by
        simp [unmaskRest, hep]] at h
      rcases List.mem_cons.mp h with h | h
      · refine ⟨⟨e.2, by rw [h]; exact List.mem_cons_self _ _⟩, ?_⟩
        rw [h]
        exact hep
      · obtain ⟨⟨x, hx⟩, hne⟩ := ih e2 h
        exact ⟨⟨x, by simp [hx]⟩, hne⟩

/-- Every raw piece of the tail occurs in its original-text reading. -/
theorem flatO_piece_occurs :
    ∀ (r : MRest) (e : Marker × Str), e ∈ r → Occurs e.2 (flatO r) := by
  intro r
  induction r with
  | nil => intro e h; simp at h
  | cons e2 t ih =>
    intro e h
    rcases List.mem_cons.mp h with h | h
    · rw [flatO_cons, h]
      exact ⟨e2.1.1, flatO t, rfl⟩
    · rw [flatO_cons, List.append_assoc]
      exact occurs_append_left _ (occurs_append_left _ (ih e h))

/-! ### The masking and unmasking phases against the structure -/

/-- Running a sequence of surface-to-placeholder rewrites on a flattened
structure equals flattening the structurally rewritten structure; the
original-text reading is untouched and markers stay within the allowed
placeholder universe `K` and pair predicate `P`. -/
theorem maskPhase (K : List Str) (P : Str × Str → Prop) :
    ∀ (ps : List (Str × Str)) (h : Str) (r : MRest),
      (∀ sp ∈ ps, sp.1 ≠ [] ∧ '[' ∉ sp.1 ∧ ']' ∉ sp.1 ∧ sp.2 ∈ K ∧ IsPh sp.2
        ∧ P sp ∧ ∀ q ∈ K, ¬ Occurs sp.1 q) →
      (∀ e ∈ r, IsPh e.1.2 ∧ e.1.2 ∈ K ∧ P e.1) →
      maskAll (h ++ flatM r) ps
          = (maskStructAll (h, r) ps).1 ++ flatM (maskStructAll (h, r) ps).2
        ∧ (maskStructAll (h, r) ps).1 ++ flatO (maskStructAll (h, r) ps).2
          = h ++ flatO r
        ∧ (∀ e ∈ (maskStructAll (h, r) ps).2, IsPh e.1.2 ∧ e.1.2 ∈ K ∧ P e.1) := by
  intro ps
  induction ps with
  | nil =>
    intro h r _ hr
    exact ⟨rfl, rfl, hr⟩
  | cons sp ps ih =>
    intro h r hps hr
    obtain ⟨hne, hlb, hrb, hK, hph, hP, hnoc⟩ := hps sp (by simp)
    have hstep : replaceAll (h ++ flatM r) sp.1 sp.2
        = (maskStruct sp.1 sp.2 h r).1 ++ flatM (maskStruct sp.1 sp.2 h r).2 := by
      rw [split_at_bracket sp.2 hne hlb (flatM_shape (fun e he => (hr e he).1)),
        maskRest_flatM sp.2 hne hlb hrb r (fun e he => ⟨(hr e he).1,
          hnoc _ (hr e he).2.1⟩),
        replaceAll_eq_occSplit hne sp.2]
      show _ = (occSplit h sp.1).1 ++ flatM ((occSplit h sp.1).2.map
        (fun y => ((sp.1, sp.2), y)) ++ maskRest sp.1 sp.2 r)
      rw [flatM_append, flatM_map_pairs]
      simp [List.append_assoc]
    have hinv : ∀ e ∈ (maskStruct sp.1 sp.2 h r).2,
        IsPh e.1.2 ∧ e.1.2 ∈ K ∧ P e.1 := by
      intro e he
      rcases List.mem_append.mp he with he | he
      · obtain ⟨y, -, hy⟩ := List.mem_map.mp he
        rw [← hy]
        exact ⟨hph, hK, hP⟩
      · rcases maskRest_markers r e he with h2 | ⟨x, hx⟩
        · exact ⟨by rw [h2]; exact hph, by rw [h2]; exact hK, by rw [h2]; exact hP⟩
        · exact hr (e.1, x) hx
    have hO : (maskStruct sp.1 sp.2 h r).1 ++ flatO (maskStruct sp.1 sp.2 h r).2
        = h ++ flatO r := by
      show (occSplit h sp.1).1 ++ flatO ((occSplit h sp.1).2.map
        (fun y => ((sp.1, sp.2), y)) ++ maskRest sp.1 sp.2 r) = _
      rw [flatO_append, flatO_map_pairs, maskRest_flatO sp.2 hne]
      conv_rhs => rw [← @occSplit_join h _ hne]
      simp [List.append_assoc]
    have hIH := ih (maskStruct sp.1 sp.2 h r).1 (maskStruct sp.1 sp.2 h r).2
      (fun sp2 hsp2 => hps sp2 (by simp [hsp2])) hinv
    refine ⟨?_, ?_, ?_⟩
    · show maskAll (replaceAll (h ++ flatM r) sp.1 sp.2) ps = _
      rw [hstep]
      exact hIH.1
    · exact hIH.2.1.trans hO
    · exact hIH.2.2

/-- With distinct keys, the value stored under a key is unique. -/
theorem snd_unique : ∀ {l : List (Str × Str)},
    (l.map Prod.snd).Pairwise (· ≠ ·) →
    ∀ {a b : Str × Str}, a ∈ l → b ∈ l → a.2 = b.2 → a = b := by
  intro l
  induction l with
  | nil => intro _ a b ha; simp at ha
  | cons e t ih =>
    intro hd a b ha hb hab
    rw [List.map_cons, List.pairwise_cons] at hd
    rcases List.mem_cons.mp ha with ha | ha <;> rcases List.mem_cons.mp hb with hb | hb
    · rw [ha, hb]
    · exfalso
      apply hd.1 b.2 (List.mem_map_of_mem _ hb)
      rw [← hab, ha]
    · exfalso
      apply hd.1 a.2 (List.mem_map_of_mem _ ha)
      rw [hab, hb]
    · exact ih hd.2 ha hb hab

/-- Replacing every placeholder of the structure by its surface, in any
order covering all of them, restores the original-text reading. -/
theorem unmaskPhase (d : Str) :
    ∀ (qs : List (Str × Str)) (h : Str) (r : MRest),
      (∀ kv ∈ qs, IsPh kv.1 ∧ ¬ Occurs kv.1 d) →
      (∀ e ∈ r, IsPh e.1.2 ∧ (e.1.2, e.1.1) ∈ qs) →
      (∀ kv ∈ qs, ∀ e ∈ r, e.1.2 = kv.1 → e.1.1 = kv.2) →
      h ++ flatO r = d →
      qs.foldl (fun w kv => replaceAll w kv.1 kv.2) (h ++ flatM r) = d := by
  intro qs
  induction qs with
  | nil =>
    intro h r _ hr _ hO
    cases r with
    | nil => simpa [flatM, flatO] using hO
    | cons e t => exact absurd (hr e (by simp)).2 (by simp)
  | cons kv qs ih =>
    intro h r hqs hr hkey hO
    obtain ⟨hph, hnocc⟩ := hqs kv (by simp)
    have hhd : Occurs h d := ⟨[], flatO r, by rw [← hO]; simp⟩
    have hOr : Occurs (flatO r) d := ⟨h, [], by rw [← hO]; simp⟩
    have hstep : replaceAll (h ++ flatM r) kv.1 kv.2
        = (h ++ (unmaskRest kv.1 r).1) ++ flatM (unmaskRest kv.1 r).2 := by
      rw [passthrough_raw hhd hnocc hph (flatM_shape (fun e he => (hr e he).1)) kv.2,
        unmaskRest_flatM hph hnocc r (fun e he => ⟨(hr e he).1,
          occurs_trans (flatO_piece_occurs r e he) hOr,
          fun hkk => hkey kv (by simp) e he hkk⟩),
        List.append_assoc]
    show qs.foldl _ (replaceAll (h ++ flatM r) kv.1 kv.2) = d
    rw [hstep]
    refine ih (h ++ (unmaskRest kv.1 r).1) (unmaskRest kv.1 r).2
      (fun kv2 hkv2 => hqs kv2 (by simp [hkv2])) ?_ ?_ ?_
    · intro e he
      obtain ⟨⟨x, hx⟩, hne⟩ := unmaskRest_markers kv.1 r e he
      have h2 := hr (e.1, x) hx
      refine ⟨h2.1, ?_⟩
      rcases List.mem_cons.mp h2.2 with hc | hc
      · exact absurd (congrArg Prod.fst hc) hne
      · exact hc
    · intro kv2 hkv2 e he hkk
      obtain ⟨⟨x, hx⟩, -⟩ := unmaskRest_markers kv.1 r e he
      exact hkey kv2 (by simp [hkv2]) (e.1, x) hx hkk
    · rw [List.append_assoc, unmaskRest_flatO kv.1 r]
      exact hO

/-- The master round trip: masking by a pair list and unmasking by any
permutation of the swapped pairs restores the document, provided the
placeholders are bracketed with bracket-free bodies and pairwise distinct,
no placeholder occurs in the document, the surfaces are bracket-free, and
no surface occurs in any placeholder. -/
theorem maskAll_unmask (d : Str) (ps qs : List (Str × Str))
    (hperm : qs.Perm (ps.map Prod.swap))
    (hvals : ∀ sp ∈ ps, '[' ∉ sp.1 ∧ ']' ∉ sp.1)
    (hk : ∀ sp ∈ ps, IsPh sp.2)
    (hsub : ∀ sp ∈ ps, ∀ sp2 ∈ ps, ¬ Occurs sp.1 sp2.2)
    (hkd : ∀ sp ∈ ps, ¬ Occurs sp.2 d)
    (hdist : (ps.map Prod.snd).Pairwise (· ≠ ·)) :
    qs.foldl (fun w kv => replaceAll w kv.1 kv.2) (maskAll d ps) = d := by
  have hne : ∀ sp ∈ ps, sp.1 ≠ [] := fun sp hsp =>
    not_occurs_ne_nil (hsub sp hsp sp hsp)
  have hmask := maskPhase (ps.map Prod.snd) (fun sp => sp ∈ ps) ps d []
    (fun sp hsp => ⟨hne sp hsp, (hvals sp hsp).1, (hvals sp hsp).2,
      List.mem_map_of_mem _ hsp, hk sp hsp, hsp,
      fun q hq => by
        obtain ⟨sp2, hsp2, rfl⟩ := List.mem_map.mp hq
        exact hsub sp hsp sp2 hsp2⟩)
    (fun e he => by simp at he)
  obtain ⟨hM, hO, hmarks⟩ := hmask
  rw [show d ++ flatM [] = d by simp [flatM]] at hM
  rw [show d ++ flatO [] = d by simp [flatO]] at hO
  rw [hM]
  apply unmaskPhase d qs (maskStructAll (d, []) ps).1 (maskStructAll (d, []) ps).2
  · intro kv hkv
    obtain ⟨sp, hsp, rfl⟩ := List.mem_map.mp (hperm.subset hkv)
    exact ⟨hk sp hsp, hkd sp hsp⟩
  · intro e he
    obtain ⟨hph, -, hpair⟩ := hmarks e he
    refine ⟨hph, ?_⟩
    apply hperm.mem_iff.mpr
    exact List.mem_map_of_mem Prod.swap hpair
  · intro kv hkv e he hkk
    obtain ⟨sp, hsp, rfl⟩ := List.mem_map.mp (hperm.subset hkv)
    obtain ⟨-, -, hpair⟩ := hmarks e he
    have := snd_unique hdist hpair hsp (by simpa using hkk)
    simp [this, Prod.swap]
  · exact hO

/-! ### The stable descending sort -/

theorem insLen_perm {α : Type} (key : α → Nat) (a : α) :
    ∀ l : List α, (insLen key a l).Perm (a :: l)
  | [] => List.Perm.refl _
  | b :: t => by
    rw [insLen]
    by_cases hk : key b ≤ key a
    · rw [if_pos hk]
    · rw [if_neg hk]
      exact ((insLen_perm key a t).cons b).trans (List.Perm.swap a b t)

theorem sortLenDesc_perm {α : Type} (key : α → Nat) :
    ∀ l : List α, (sortLenDesc key l).Perm l
  | [] => List.Perm.refl _
  | a :: t =>
    (insLen_perm key a (sortLenDesc key t)).trans ((sortLenDesc_perm key t).cons a)

theorem mem_sortLenDesc {α : Type} {key : α → Nat} {l : List α} {x : α}
    (h : x ∈ sortLenDesc key l) : x ∈ l :=
  (sortLenDesc_perm key l).mem_iff.mp h

theorem insLen_sorted {α : Type} (key : α → Nat) (a : α) :
    ∀ l : List α, l.Pairwise (fun x y => key y ≤ key x) →
      (insLen key a l).Pairwise (fun x y => key y ≤ key x)
  | [] => by intro _; simp [insLen]
  | b :: t => by
    intro h
    rw [List.pairwise_cons] at h
    rw [insLen]
    by_cases hk : key b ≤ key a
    · rw [if_pos hk, List.pairwise_cons]
      refine ⟨?_, by rw [List.pairwise_cons]; exact h⟩
      intro y hy
      rcases List.mem_cons.mp hy with rfl | hy
      · exact hk
      · exact le_trans (h.1 y hy) hk
    · rw [if_neg hk, List.pairwise_cons]
      refine ⟨?_, insLen_sorted key a t h.2⟩
      intro y hy
      rcases List.mem_cons.mp ((insLen_perm key a t).mem_iff.mp hy) with rfl | hy2
      · omega
      · exact h.1 y hy2

theorem sortLenDesc_sorted {α : Type} (key : α → Nat) :
    ∀ l : List α, (sortLenDesc key l).Pairwise (fun x y => key y ≤ key x)
  | [] => by simp [sortLenDesc]
  | a :: t => insLen_sorted key a _ (sortLenDesc_sorted key t)

/-! ### Placeholder token shapes and injectivity -/

theorem placeholder_eq (l : Str) (n : Nat) :
    placeholder l n = '[' :: (l ++ '_' :: (digStr n ++ [']'])) := by
  simp [placeholder, List.append_assoc]

theorem subPlaceholder_eq (l : Str) (i j : Nat) :
    subPlaceholder l i j
      = '[' :: (l ++ '_' :: (digStr i ++ '_' :: (digStr j ++ [']']))) := by
  simp [subPlaceholder, List.append_assoc]

theorem isPh_placeholder {l : Str} (h1 : '[' ∉ l) (h2 : ']' ∉ l) (n : Nat) :
    IsPh (placeholder l n) := by
  refine ⟨l ++ '_' :: digStr n, ?_, ?_, ?_⟩
  · rw [placeholder_eq]
    simp [List.append_assoc]
  · intro hc
    rcases List.mem_append.mp hc with hc | hc
    · exact h1 hc
    · rcases List.mem_cons.mp hc with hc | hc
      · exact absurd hc (by decide)
      · exact digStr_no_lb hc
  · intro hc
    rcases List.mem_append.mp hc with hc | hc
    · exact h2 hc
    · rcases List.mem_cons.mp hc with hc | hc
      · exact absurd hc (by decide)
      · exact digStr_no_rb hc

theorem isPh_subPlaceholder {l : Str} (h1 : '[' ∉ l) (h2 : ']' ∉ l) (i j : Nat) :
    IsPh (subPlaceholder l i j) := by
  refine ⟨l ++ '_' :: (digStr i ++ '_' :: digStr j), ?_, ?_, ?_⟩
  · rw [subPlaceholder_eq]
    simp [List.append_assoc]
  · intro hc
    rcases List.mem_append.mp hc with hc | hc
    · exact h1 hc
    · rcases List.mem_cons.mp hc with hc | hc
      · exact absurd hc (by decide)
      · rcases List.mem_append.mp hc with hc | hc
        · exact digStr_no_lb hc
        · rcases List.mem_cons.mp hc with hc | hc
          · exact absurd hc (by decide)
          · exact digStr_no_lb hc
  · intro hc
    rcases List.mem_append.mp hc with hc | hc
    · exact h2 hc
    · rcases List.mem_cons.mp hc with hc | hc
      · exact absurd hc (by decide)
      · rcases List.mem_append.mp hc with hc | hc
        · exact digStr_no_rb hc
        · rcases List.mem_cons.mp hc with hc | hc
          · exact absurd hc (by decide)
          · exact digStr_no_rb hc

theorem placeholder_inj {l1 l2 : Str} (h1 : '_' ∉ l1) (h2 : '_' ∉ l2)
    {n1 n2 : Nat} (h : placeholder l1 n1 = placeholder l2 n2) :
    l1 = l2 ∧ n1 = n2 := by
  rw [placeholder_eq, placeholder_eq] at h
  obtain ⟨hl, hrest⟩ := append_cons_inj h1 h2 (List.cons.inj h).2
  obtain ⟨hd, -⟩ := append_cons_inj (digStr_no_rb (n := n1)) (digStr_no_rb (n := n2)) hrest
  exact ⟨hl, digStr_inj hd⟩

theorem subPlaceholder_inj {l1 l2 : Str} (h1 : '_' ∉ l1) (h2 : '_' ∉ l2)
    {i1 j1 i2 j2 : Nat} (h : subPlaceholder l1 i1 j1 = subPlaceholder l2 i2 j2) :
    l1 = l2 ∧ i1 = i2 ∧ j1 = j2 := by
  rw [subPlaceholder_eq, subPlaceholder_eq] at h
  obtain ⟨hl, hrest⟩ := append_cons_inj h1 h2 (List.cons.inj h).2
  obtain ⟨hi, hrest2⟩ := append_cons_inj (digStr_no_underscore (n := i1))
    (digStr_no_underscore (n := i2)) hrest
  obtain ⟨hj, -⟩ := append_cons_inj (digStr_no_rb (n := j1)) (digStr_no_rb (n := j2)) hrest2
  exact ⟨hl, digStr_inj hi, digStr_inj hj⟩

theorem placeholder_ne_subPlaceholder {l1 l2 : Str} (h1 : '_' ∉ l1)
    (h2 : '_' ∉ l2) (n i j : Nat) : placeholder l1 n ≠ subPlaceholder l2 i j := by
  intro h
  rw [placeholder_eq, subPlaceholder_eq] at h
  obtain ⟨-, hrest⟩ := append_cons_inj h1 h2 (List.cons.inj h).2
  have hmem : '_' ∈ digStr n ++ [']'] := by
    rw [hrest]
    simp
  rcases List.mem_append.mp hmem with hc | hc
  · exact digStr_no_underscore hc
  · simp at hc

theorem entityTypes_facts : ∀ l ∈ entityTypes, '_' ∉ l ∧ '[' ∉ l ∧ ']' ∉ l := by
  decide

theorem email_label_facts :
    str "EMAIL" ∉ entityTypes ∧ '_' ∉ str "EMAIL" ∧ '[' ∉ str "EMAIL"
      ∧ ']' ∉ str "EMAIL" := by
  decide

theorem url_label_facts :
    str "URL" ∉ entityTypes ∧ '_' ∉ str "URL" ∧ '[' ∉ str "URL"
      ∧ ']' ∉ str "URL" ∧ str "URL" ≠ str "EMAIL" := by
  decide

theorem phone_label_facts :
    '_' ∉ str "PHONE" ∧ '[' ∉ str "PHONE" ∧ ']' ∉ str "PHONE"
      ∧ str "PHONE" ≠ str "ATTACHMENT" := by
  decide

theorem attachment_label_facts :
    '_' ∉ str "ATTACHMENT" ∧ '[' ∉ str "ATTACHMENT" ∧ ']' ∉ str "ATTACHMENT" := by
  decide

/-! ### The entity map as an association list -/

theorem insertEntity_append {m : EntityMap} {k : Str} (v : Str)
    (h : ∀ e ∈ m, e.1 ≠ k) : insertEntity m k v = m ++ [(k, v)] := by
  rw [insertEntity, if_neg]
  intro hc
  rw [List.any_eq_true] at hc
  obtain ⟨e, he, hd⟩ := hc
  exact h e he (of_decide_eq_true hd)

theorem numberedMap_eq_swap : ∀ (n : Nat) (l : List Ent),
    numberedMap n l = (numberFrom n l).map Prod.swap
  | _, [] => rfl
  | n, e :: t => by
    rw [numberedMap, numberFrom, List.map_cons, numberedMap_eq_swap (n + 1) t]
    rfl

theorem numberedMap_length : ∀ (n : Nat) (l : List Ent),
    (numberedMap n l).length = l.length
  | _, [] => rfl
  | n, e :: t => by
    rw [numberedMap, List.length_cons, List.length_cons, numberedMap_length (n + 1) t]

theorem numberedMap_append : ∀ (a : List Ent) (n : Nat) (b : List Ent),
    numberedMap n (a ++ b) = numberedMap n a ++ numberedMap (n + a.length) b
  | [], n, b => by simp [numberedMap]
  | e :: t, n, b => by
    rw [List.cons_append, numberedMap, numberedMap, List.cons_append,
      numberedMap_append t (n + 1) b]
    have : n + 1 + t.length = n + (t.length + 1) := by omega
    rw [this, List.length_cons]

theorem numberedMap_keys : ∀ (l : List Ent) (n : Nat) (e : Str × Str),
    e ∈ numberedMap n l →
    ∃ ent i, ent ∈ l ∧ n < i ∧ i ≤ n + l.length ∧ e.1 = placeholder ent.label i
  | [], n, e => by intro h; simp [numberedMap] at h
  | ent0 :: t, n, e => by
    intro h
    rw [numberedMap] at h
    rcases List.mem_cons.mp h with h | h
    · exact ⟨ent0, n + 1, by simp, by omega, by simp, by rw [h]⟩
    · obtain ⟨ent, i, hent, h1, h2, h3⟩ := numberedMap_keys t (n + 1) e h
      exact ⟨ent, i, by simp [hent], by omega, by simp; omega, h3⟩

/-! ### The entity-recognizer pass, resolved -/

/-- The entity loop of `mask_email`, run from an arbitrary state whose map
is a numbered block: it rewrites by the accepted pairs, numbers them with
the global counter, and accumulates the accepted intervals. -/
theorem nerLoop_spec : ∀ (l : List Ent) (w : Str) (els : List Ent)
    (spans : List (Nat × Nat)),
    (∀ e ∈ l, e.label ∈ entityTypes) → (∀ e ∈ els, e.label ∈ entityTypes) →
    l.foldl nerStep (w, numberedMap 0 els, spans)
      = (maskAll w (numberFrom els.length (resolveNew spans l)),
         numberedMap 0 (els ++ resolveNew spans l),
         resolveSpans spans l) := by
  intro l
  induction l with
  | nil =>
    intro w els spans _ _
    simp [resolveNew, resolveSpans, numberFrom, maskAll]
  | cons e t ih =>
    intro w els spans hl hels
    show t.foldl nerStep (nerStep (w, numberedMap 0 els, spans) e) = _
    by_cases hov : overlapsAny spans e.startChar e.endChar = true
    · have hstep : nerStep (w, numberedMap 0 els, spans) e
          = (w, numberedMap 0 els, spans) := by
        rw [nerStep, if_pos hov]
      rw [hstep, ih w els spans (fun e2 he2 => hl e2 (by simp [he2])) hels,
        show resolveNew spans (e :: t) = resolveNew spans t by
          rw [resolveNew, if_pos hov],
        show resolveSpans spans (e :: t) = resolveSpans spans t by
          rw [resolveSpans, if_pos hov]]
    · have hfresh : ∀ e2 ∈ numberedMap 0 els,
          e2.1 ≠ placeholder e.label (els.length + 1) := by
        intro e2 he2 hc
        obtain ⟨ent, i, hent, h0, hle, hkey⟩ := numberedMap_keys els 0 e2 he2
        rw [hkey] at hc
        obtain ⟨-, hn⟩ := placeholder_inj
          ((entityTypes_facts _ (hels ent hent)).1)
          ((entityTypes_facts _ (hl e (by simp))).1) hc
        omega
      have hstep : nerStep (w, numberedMap 0 els, spans) e
          = (replaceAll w e.text (placeholder e.label (els.length + 1)),
             numberedMap 0 (els ++ [e]), spans ++ [(e.startChar, e.endChar)]) := by
        rw [nerStep, if_neg hov]
        show (replaceAll w e.text (placeholder e.label ((numberedMap 0 els).length + 1)),
          insertEntity (numberedMap 0 els)
            (placeholder e.label ((numberedMap 0 els).length + 1)) e.text,
          spans ++ [(e.startChar, e.endChar)]) = _
        rw [numberedMap_length, insertEntity_append e.text hfresh,
          numberedMap_append els 0 [e], Nat.zero_add]
        rfl
      rw [hstep, ih _ (els ++ [e]) _ (fun e2 he2 => hl e2 (by simp [he2]))
        (by
          intro e2 he2
          rcases List.mem_append.mp he2 with h | h
          · exact hels e2 h
          · simp at h
            rw [h]
            exact hl e (by simp)),
        show resolveNew spans (e :: t)
            = e :: resolveNew (spans ++ [(e.startChar, e.endChar)]) t by
          rw [resolveNew, if_neg hov],
        show resolveSpans spans (e :: t)
            = resolveSpans (spans ++ [(e.startChar, e.endChar)]) t by
          rw [resolveSpans, if_neg hov]]
      rw [show numberFrom els.length
          (e :: resolveNew (spans ++ [(e.startChar, e.endChar)]) t)
          = (e.text, placeholder e.label (els.length + 1)) ::
            numberFrom (els.length + 1)
              (resolveNew (spans ++ [(e.startChar, e.endChar)]) t) from rfl]
      rw [show (els ++ [e]) ++ resolveNew (spans ++ [(e.startChar, e.endChar)]) t
          = els ++ e :: resolveNew (spans ++ [(e.startChar, e.endChar)]) t by
        rw [List.append_assoc]; rfl]
      rw [show (els ++ [e]).length = els.length + 1 by simp]
      rfl

/-- `nerFold` resolved: the masked text is the fold of the accepted pairs
over the document, the entity map is the numbered block of the accepted
candidates in processing order, and the recorded spans are the accepted
intervals. -/
theorem nerFold_spec (emailText : Str) (docEnts : List Ent) :
    nerFold emailText docEnts
      = (maskAll emailText (numberFrom 0 (resolveNew [] (sortedCandidates docEnts))),
         numberedMap 0 (resolveNew [] (sortedCandidates docEnts)),
         resolveSpans [] (sortedCandidates docEnts)) := by
  have hlab : ∀ e ∈ sortedCandidates docEnts, e.label ∈ entityTypes := by
    intro e he
    have h1 := mem_sortLenDesc he
    exact of_decide_eq_true (List.mem_filter.mp h1).2
  have h := nerLoop_spec (sortedCandidates docEnts) emailText [] []
    hlab (by simp [numberedMap])
  simpa [nerFold, numberedMap] using h

/-- The labels of the accepted candidates are enabled labels. -/
theorem resolveNew_subset : ∀ (l : List Ent) (spans : List (Nat × Nat))
    (e : Ent), e ∈ resolveNew spans l → e ∈ l
  | [], _, _ => by intro h; simp [resolveNew] at h
  | e0 :: t, spans, e => by
    intro h
    rw [resolveNew] at h
    by_cases hov : overlapsAny spans e0.startChar e0.endChar = true
    · rw [if_pos hov] at h
      exact List.mem_cons_of_mem _ (resolveNew_subset t spans e h)
    · rw [if_neg hov] at h
      rcases List.mem_cons.mp h with h | h
      · simp [h]
      · exact List.mem_cons_of_mem _ (resolveNew_subset t _ e h)

/-! ### Extraction of the regex passes -/

/-- A `passFold` pass extracts to a rewrite-pair list: it appends one
fresh-keyed entry per match and rewrites by the corresponding pairs,
preserving key distinctness and key shape. -/
theorem passFold_extract (mk : Nat → Str)
    (hinj : ∀ j1 j2, mk j1 = mk j2 → j1 = j2)
    (hph : ∀ j, IsPh (mk j)) :
    ∀ (ts : List Str) (n : Nat) (w : Str) (m : EntityMap),
      (∀ j, n ≤ j → ∀ e ∈ m, e.1 ≠ mk j) →
      ((m.map Prod.fst).Pairwise (· ≠ ·)) →
      (∀ e ∈ m, IsPh e.1) →
      ∃ ps : List (Str × Str),
        passFold mk n ts (w, m) = (maskAll w ps, m ++ ps.map Prod.swap)
        ∧ (∀ sp ∈ ps, ∃ j, n ≤ j ∧ sp.2 = mk j)
        ∧ (((m ++ ps.map Prod.swap).map Prod.fst).Pairwise (· ≠ ·))
        ∧ (∀ e ∈ m ++ ps.map Prod.swap, IsPh e.1) := by
  intro ts
  induction ts with
  | nil =>
    intro n w m hfresh hpw hphm
    exact ⟨[], by simp [passFold, maskAll], by simp,
      by simpa using hpw, by simpa using hphm⟩
  | cons t ts ih =>
    intro n w m hfresh hpw hphm
    have hfr : ∀ e ∈ m, e.1 ≠ mk n := fun e he => hfresh n (le_refl n) e he
    have hm2pw : ((m ++ [(mk n, t)]).map Prod.fst).Pairwise (· ≠ ·) := by
      rw [List.map_append, List.pairwise_append]
      refine ⟨hpw, by simp, ?_⟩
      intro a ha b hb
      simp only [List.map_cons, List.map_nil, List.mem_singleton] at hb
      rw [hb]
      obtain ⟨e, he, rfl⟩ := List.mem_map.mp ha
      exact hfr e he
    have hm2ph : ∀ e ∈ m ++ [(mk n, t)], IsPh e.1 := by
      intro e he
      rcases List.mem_append.mp he with he | he
      · exact hphm e he
      · rw [List.mem_singleton] at he
        rw [he]
        exact hph n
    obtain ⟨ps, heq, hshape, hpw2, hph2⟩ := ih (n + 1)
      (replaceAll w t (mk n)) (m ++ [(mk n, t)])
      (by
        intro j hj e he
        rcases List.mem_append.mp he with he | he
        · exact hfresh j (by omega) e he
        · rw [List.mem_singleton] at he
          rw [he]
          intro hc
          have := hinj n j hc
          omega)
      hm2pw hm2ph
    have halign : (m ++ [(mk n, t)]) ++ ps.map Prod.swap
        = m ++ ((t, mk n) :: ps).map Prod.swap := by
      rw [List.append_assoc]
      rfl
    refine ⟨(t, mk n) :: ps, ?_, ?_, ?_, ?_⟩
    · show passFold mk (n + 1) ts
        (replaceAll w t (mk n), insertEntity m (mk n) t) = _
      rw [insertEntity_append t hfr, heq, halign]
      rfl
    · intro sp hsp
      rcases List.mem_cons.mp hsp with rfl | hsp
      · exact ⟨n, le_refl n, rfl⟩
      · obtain ⟨j, hj, hmk⟩ := hshape sp hsp
        exact ⟨j, by omega, hmk⟩
    · rw [← halign]
      exact hpw2
    · rw [← halign]
      exact hph2

/-- An `attFold` pass extracts likewise; its keys carry the running global
counter, which stays bounded by the map length. -/
theorem attFold_extract (i : Nat) :
    ∀ (ts : List Str) (w : Str) (m : EntityMap),
      (∀ e ∈ m, ∀ i2 n2, m.length < n2 →
        e.1 ≠ subPlaceholder (str "ATTACHMENT") i2 n2) →
      ((m.map Prod.fst).Pairwise (· ≠ ·)) →
      (∀ e ∈ m, IsPh e.1) →
      ∃ ps : List (Str × Str),
        attFold i ts (w, m) = (maskAll w ps, m ++ ps.map Prod.swap)
        ∧ (((m ++ ps.map Prod.swap).map Prod.fst).Pairwise (· ≠ ·))
        ∧ (∀ e ∈ m ++ ps.map Prod.swap, IsPh e.1)
        ∧ (∀ e ∈ m ++ ps.map Prod.swap, ∀ i2 n2,
            (m ++ ps.map Prod.swap).length < n2 →
            e.1 ≠ subPlaceholder (str "ATTACHMENT") i2 n2) := by
  intro ts
  induction ts with
  | nil =>
    intro w m hatt hpw hphm
    exact ⟨[], by simp [attFold, maskAll], by simpa using hpw,
      by simpa using hphm, by simpa using hatt⟩
  | cons t ts ih =>
    intro w m hatt hpw hphm
    have hfr : ∀ e ∈ m, e.1 ≠ subPlaceholder (str "ATTACHMENT") i (m.length + 1) :=
      fun e he => hatt e he i (m.length + 1) (by omega)
    have hm2pw : ((m ++ [(subPlaceholder (str "ATTACHMENT") i (m.length + 1), t)]).map
        Prod.fst).Pairwise (· ≠ ·) := by
      rw [List.map_append, List.pairwise_append]
      refine ⟨hpw, by simp, ?_⟩
      intro a ha b hb
      simp only [List.map_cons, List.map_nil, List.mem_singleton] at hb
      rw [hb]
      obtain ⟨e, he, rfl⟩ := List.mem_map.mp ha
      exact hfr e he
    have hm2ph : ∀ e ∈ m ++ [(subPlaceholder (str "ATTACHMENT") i (m.length + 1), t)],
        IsPh e.1 := by
      intro e he
      rcases List.mem_append.mp he with he | he
      · exact hphm e he
      · rw [List.mem_singleton] at he
        rw [he]
        exact isPh_subPlaceholder attachment_label_facts.2.1
          attachment_label_facts.2.2 _ _
    have hm2att : ∀ e ∈ m ++ [(subPlaceholder (str "ATTACHMENT") i (m.length + 1), t)],
        ∀ i2 n2,
        (m ++ [(subPlaceholder (str "ATTACHMENT") i (m.length + 1), t)]).length < n2 →
        e.1 ≠ subPlaceholder (str "ATTACHMENT") i2 n2 := by
      intro e he i2 n2 hn2 hc
      rw [List.length_append, List.length_cons, List.length_nil] at hn2
      rcases List.mem_append.mp he with he | he
      · exact hatt e he i2 n2 (by omega) hc
      · rw [List.mem_singleton] at he
        rw [he] at hc
        obtain ⟨-, -, hn⟩ := subPlaceholder_inj attachment_label_facts.1
          attachment_label_facts.1 hc
        omega
    obtain ⟨ps, heq, hpw2, hph2, hatt2⟩ := ih
      (replaceAll w t (subPlaceholder (str "ATTACHMENT") i (m.length + 1)))
      (m ++ [(subPlaceholder (str "ATTACHMENT") i (m.length + 1), t)])
      hm2att hm2pw hm2ph
    have halign : (m ++ [(subPlaceholder (str "ATTACHMENT") i (m.length + 1), t)])
        ++ ps.map Prod.swap
        = m ++ ((t, subPlaceholder (str "ATTACHMENT") i (m.length + 1)) :: ps).map
            Prod.swap := by
      rw [List.append_assoc]
      rfl
    refine ⟨(t, subPlaceholder (str "ATTACHMENT") i (m.length + 1)) :: ps,
      ?_, ?_, ?_, ?_⟩
    · show attFold i ts
        (replaceAll w t (subPlaceholder (str "ATTACHMENT") i (m.length + 1)),
          insertEntity m (subPlaceholder (str "ATTACHMENT") i (m.length + 1)) t) = _
      rw [insertEntity_append t hfr, heq, halign]
      rfl
    · rw [← halign]
      exact hpw2
    · rw [← halign]
      exact hph2
    · rw [← halign]
      exact hatt2

/-! ### Key-shape freshness helpers -/

theorem maskAll_append (w : Str) (a b : List (Str × Str)) :
    maskAll w (a ++ b) = maskAll (maskAll w a) b := by
  simp [maskAll, List.foldl_append]

theorem numberedMap_pairwise (l : List Ent)
    (hl : ∀ e ∈ l, e.label ∈ entityTypes) :
    ∀ n, ((numberedMap n l).map Prod.fst).Pairwise (· ≠ ·) := by
  induction l with
  | nil => intro n; simp [numberedMap]
  | cons e t ih =>
    intro n
    rw [numberedMap, List.map_cons, List.pairwise_cons]
    refine ⟨?_, ih (fun e2 he2 => hl e2 (by simp [he2])) (n + 1)⟩
    intro k hk hc
    obtain ⟨e2, he2, hkey⟩ := List.mem_map.mp hk
    obtain ⟨ent, i, hent, h1, -, h3⟩ := numberedMap_keys t (n + 1) e2 he2
    rw [← hc, h3] at hkey
    have hkey2 : placeholder ent.label i = placeholder e.label (n + 1) := by
      simpa using hkey
    obtain ⟨-, hn⟩ := placeholder_inj
      ((entityTypes_facts _ (hl ent (by simp [hent]))).1)
      ((entityTypes_facts _ (hl e (by simp))).1) hkey2
    omega

theorem plainKey_ne_placeholder {labels : List Str} {k : Str}
    (hk : PlainKey labels k) (hl : ∀ lab ∈ labels, '_' ∉ lab) {lab2 : Str}
    (h2 : '_' ∉ lab2) (hnot : lab2 ∉ labels) (n : Nat) :
    k ≠ placeholder lab2 n := by
  obtain ⟨lab, n2, hlab, rfl⟩ := hk
  intro hc
  obtain ⟨rfl, -⟩ := placeholder_inj (hl lab hlab) h2 hc
  exact hnot hlab

theorem plainKey_ne_sub {labels : List Str} {k : Str}
    (hk : PlainKey labels k) (hl : ∀ lab ∈ labels, '_' ∉ lab) {lab2 : Str}
    (h2 : '_' ∉ lab2) (i j : Nat) : k ≠ subPlaceholder lab2 i j := by
  obtain ⟨lab, n2, hlab, rfl⟩ := hk
  exact placeholder_ne_subPlaceholder (hl lab hlab) h2 n2 i j

theorem subKey_ne_placeholder {lab : Str} {bound : Nat} {k : Str}
    (hk : SubKey lab bound k) (h1 : '_' ∉ lab) {lab2 : Str} (h2 : '_' ∉ lab2)
    (n : Nat) : k ≠ placeholder lab2 n := by
  obtain ⟨i, j, -, rfl⟩ := hk
  intro hc
  exact placeholder_ne_subPlaceholder h2 h1 n i j hc.symm

theorem subKey_ne_sub_bound {lab : Str} {bound : Nat} {k : Str}
    (hk : SubKey lab bound k) (h1 : '_' ∉ lab) (j : Nat) :
    k ≠ subPlaceholder lab bound j := by
  obtain ⟨i2, j2, hi2, rfl⟩ := hk
  intro hc
  obtain ⟨-, hi, -⟩ := subPlaceholder_inj h1 h1 hc
  omega

theorem subKey_ne_sub_label {lab : Str} {bound : Nat} {k : Str}
    (hk : SubKey lab bound k) (h1 : '_' ∉ lab) {lab2 : Str} (h2 : '_' ∉ lab2)
    (hne : lab ≠ lab2) (i j : Nat) : k ≠ subPlaceholder lab2 i j := by
  obtain ⟨i2, j2, -, rfl⟩ := hk
  intro hc
  obtain ⟨hl, -, -⟩ := subPlaceholder_inj h1 h2 hc
  exact hne hl

theorem plainKey_mono {labels labels2 : List Str} {k : Str}
    (h : PlainKey labels k) (hsub : ∀ lab ∈ labels, lab ∈ labels2) :
    PlainKey labels2 k := by
  obtain ⟨lab, n, hlab, rfl⟩ := h
  exact ⟨lab, n, hsub lab hlab, rfl⟩

theorem subKey_mono {lab : Str} {b1 b2 : Nat} {k : Str}
    (h : SubKey lab b1 k) (hle : b1 ≤ b2) : SubKey lab b2 k := by
  obtain ⟨i, j, hi, rfl⟩ := h
  exact ⟨i, j, by omega, rfl⟩

/-! ### The passes of `mask_email`, extracted -/

/-- The EMAIL and URL passes: a single-counter pass for a new label over a
map whose keys are plain keys of other labels or phone sub-keys. -/
theorem plainPass_extract (newLab : Str) (labels : List Str) (b : Nat)
    (hfacts : '_' ∉ newLab ∧ '[' ∉ newLab ∧ ']' ∉ newLab ∧ newLab ≠ str "PHONE")
    (hnot : newLab ∉ labels)
    (hlabels : ∀ lab ∈ labels, '_' ∉ lab)
    (ts : List Str) (w : Str) (m : EntityMap)
    (hshape : ∀ e ∈ m, PlainKey labels e.1 ∨ SubKey (str "PHONE") b e.1)
    (hpw : (m.map Prod.fst).Pairwise (· ≠ ·))
    (hph : ∀ e ∈ m, IsPh e.1) :
    ∃ ps, passFold (fun j => placeholder newLab (j + 1)) 0 ts (w, m)
        = (maskAll w ps, m ++ ps.map Prod.swap)
      ∧ (∀ e ∈ m ++ ps.map Prod.swap,
          PlainKey (newLab :: labels) e.1 ∨ SubKey (str "PHONE") b e.1)
      ∧ (((m ++ ps.map Prod.swap).map Prod.fst).Pairwise (· ≠ ·))
      ∧ (∀ e ∈ m ++ ps.map Prod.swap, IsPh e.1) := by
  obtain ⟨ps, heq, hshape2, hpw2, hph2⟩ := passFold_extract
    (fun j => placeholder newLab (j + 1))
    (fun j1 j2 h => by
      obtain ⟨-, hj⟩ := placeholder_inj hfacts.1 hfacts.1 h
      omega)
    (fun j => isPh_placeholder hfacts.2.1 hfacts.2.2.1 _)
    ts 0 w m
    (fun j _ e he => by
      rcases hshape e he with hk | hk
      · exact plainKey_ne_placeholder hk hlabels hfacts.1 hnot (j + 1)
      · exact subKey_ne_placeholder hk phone_label_facts.1 hfacts.1 (j + 1))
    hpw hph
  refine ⟨ps, heq, ?_, hpw2, hph2⟩
  intro e he
  rcases List.mem_append.mp he with he | he
  · rcases hshape e he with hk | hk
    · exact Or.inl (plainKey_mono hk (fun lab hl => by simp [hl]))
    · exact Or.inr hk
  · obtain ⟨sp, hsp, rfl⟩ := List.mem_map.mp he
    obtain ⟨j, -, hmk⟩ := hshape2 sp hsp
    exact Or.inl ⟨newLab, j + 1, by simp, hmk⟩

/-- One phone pattern's pass: phone sub-keys of the current pattern index
are fresh against plain keys and against earlier patterns' sub-keys. -/
theorem phoneStep_extract (i : Nat) (labels : List Str)
    (hlabels : ∀ lab ∈ labels, '_' ∉ lab)
    (ts : List Str) (w : Str) (m : EntityMap)
    (hshape : ∀ e ∈ m, PlainKey labels e.1 ∨ SubKey (str "PHONE") i e.1)
    (hpw : (m.map Prod.fst).Pairwise (· ≠ ·))
    (hph : ∀ e ∈ m, IsPh e.1) :
    ∃ ps, passFold (fun j => subPlaceholder (str "PHONE") i (j + 1)) 0 ts (w, m)
        = (maskAll w ps, m ++ ps.map Prod.swap)
      ∧ (∀ e ∈ m ++ ps.map Prod.swap,
          PlainKey labels e.1 ∨ SubKey (str "PHONE") (i + 1) e.1)
      ∧ (((m ++ ps.map Prod.swap).map Prod.fst).Pairwise (· ≠ ·))
      ∧ (∀ e ∈ m ++ ps.map Prod.swap, IsPh e.1) := by
  obtain ⟨ps, heq, hshape2, hpw2, hph2⟩ := passFold_extract
    (fun j => subPlaceholder (str "PHONE") i (j + 1))
    (fun j1 j2 h => by
      obtain ⟨-, -, hj⟩ := subPlaceholder_inj phone_label_facts.1
        phone_label_facts.1 h
      omega)
    (fun j => isPh_subPlaceholder phone_label_facts.2.1 phone_label_facts.2.2.1 _ _)
    ts 0 w m
    (fun j _ e he => by
      rcases hshape e he with hk | hk
      · exact plainKey_ne_sub hk hlabels phone_label_facts.1 i (j + 1)
      · exact subKey_ne_sub_bound hk phone_label_facts.1 (j + 1))
    hpw hph
  refine ⟨ps, heq, ?_, hpw2, hph2⟩
  intro e he
  rcases List.mem_append.mp he with he | he
  · rcases hshape e he with hk | hk
    · exact Or.inl hk
    · exact Or.inr (subKey_mono hk (by omega))
  · obtain ⟨sp, hsp, rfl⟩ := List.mem_map.mp he
    obtain ⟨j, -, hmk⟩ := hshape2 sp hsp
    exact Or.inr ⟨i, j + 1, by omega, hmk⟩

/-- The whole phone pass, extracted. -/
theorem phonePass_extract (labels : List Str)
    (hlabels : ∀ lab ∈ labels, '_' ∉ lab)
    (fp : Nat → Str → List Str) (w : Str) (m : EntityMap)
    (hshape : ∀ e ∈ m, PlainKey labels e.1 ∨ SubKey (str "PHONE") 0 e.1)
    (hpw : (m.map Prod.fst).Pairwise (· ≠ ·))
    (hph : ∀ e ∈ m, IsPh e.1) :
    ∃ ps, phonePass fp (w, m) = (maskAll w ps, m ++ ps.map Prod.swap)
      ∧ (∀ e ∈ m ++ ps.map Prod.swap,
          PlainKey labels e.1 ∨ SubKey (str "PHONE") 3 e.1)
      ∧ (((m ++ ps.map Prod.swap).map Prod.fst).Pairwise (· ≠ ·))
      ∧ (∀ e ∈ m ++ ps.map Prod.swap, IsPh e.1) := by
  obtain ⟨p0, e0, s0, pw0, ph0⟩ := phoneStep_extract 0 labels hlabels
    (fp 0 w) w m hshape hpw hph
  obtain ⟨p1, e1, s1, pw1, ph1⟩ := phoneStep_extract 1 labels hlabels
    (fp 1 (maskAll w p0)) (maskAll w p0) (m ++ p0.map Prod.swap) s0 pw0 ph0
  obtain ⟨p2, e2, s2, pw2, ph2⟩ := phoneStep_extract 2 labels hlabels
    (fp 2 (maskAll (maskAll w p0) p1)) (maskAll (maskAll w p0) p1)
    ((m ++ p0.map Prod.swap) ++ p1.map Prod.swap) s1 pw1 ph1
  have halign : ((m ++ p0.map Prod.swap) ++ p1.map Prod.swap) ++ p2.map Prod.swap
      = m ++ ((p0 ++ p1) ++ p2).map Prod.swap := by
    simp [List.map_append, List.append_assoc]
  refine ⟨(p0 ++ p1) ++ p2, ?_, ?_, ?_, ?_⟩
  · simp only [phonePass]
    rw [e0, show (maskAll w p0, m ++ p0.map Prod.swap).1 = maskAll w p0 from rfl,
      e1, show (maskAll (maskAll w p0) p1,
        (m ++ p0.map Prod.swap) ++ p1.map Prod.swap).1
        = maskAll (maskAll w p0) p1 from rfl,
      e2, maskAll_append, maskAll_append, halign]
  · rw [← halign]
    exact s2
  · rw [← halign]
    exact pw2
  · rw [← halign]
    exact ph2

/-- The whole attachment pass, extracted. -/
theorem attachPass_extract (fa : Nat → Str → List Str) (w : Str) (m : EntityMap)
    (hatt : ∀ e ∈ m, ∀ i2 n2, e.1 ≠ subPlaceholder (str "ATTACHMENT") i2 n2)
    (hpw : (m.map Prod.fst).Pairwise (· ≠ ·))
    (hph : ∀ e ∈ m, IsPh e.1) :
    ∃ ps, attachPass fa (w, m) = (maskAll w ps, m ++ ps.map Prod.swap)
      ∧ (((m ++ ps.map Prod.swap).map Prod.fst).Pairwise (· ≠ ·))
      ∧ (∀ e ∈ m ++ ps.map Prod.swap, IsPh e.1) := by
  obtain ⟨q0, e0, pw0, ph0, at0⟩ := attFold_extract 0 (fa 0 w) w m
    (fun e he i2 n2 _ => hatt e he i2 n2) hpw hph
  obtain ⟨q1, e1, pw1, ph1, at1⟩ := attFold_extract 1
    (fa 1 (maskAll w q0)) (maskAll w q0) (m ++ q0.map Prod.swap) at0 pw0 ph0
  obtain ⟨q2, e2, pw2, ph2, at2⟩ := attFold_extract 2
    (fa 2 (maskAll (maskAll w q0) q1)) (maskAll (maskAll w q0) q1)
    ((m ++ q0.map Prod.swap) ++ q1.map Prod.swap) at1 pw1 ph1
  obtain ⟨q3, e3, pw3, ph3, at3⟩ := attFold_extract 3
    (fa 3 (maskAll (maskAll (maskAll w q0) q1) q2))
    (maskAll (maskAll (maskAll w q0) q1) q2)
    (((m ++ q0.map Prod.swap) ++ q1.map Prod.swap) ++ q2.map Prod.swap) at2 pw2 ph2
  obtain ⟨q4, e4, pw4, ph4, at4⟩ := attFold_extract 4
    (fa 4 (maskAll (maskAll (maskAll (maskAll w q0) q1) q2) q3))
    (maskAll (maskAll (maskAll (maskAll w q0) q1) q2) q3)
    ((((m ++ q0.map Prod.swap) ++ q1.map Prod.swap) ++ q2.map Prod.swap)
      ++ q3.map Prod.swap) at3 pw3 ph3
  obtain ⟨q5, e5, pw5, ph5, at5⟩ := attFold_extract 5
    (fa 5 (maskAll (maskAll (maskAll (maskAll (maskAll w q0) q1) q2) q3) q4))
    (maskAll (maskAll (maskAll (maskAll (maskAll w q0) q1) q2) q3) q4)
    (((((m ++ q0.map Prod.swap) ++ q1.map Prod.swap) ++ q2.map Prod.swap)
      ++ q3.map Prod.swap) ++ q4.map Prod.swap) at4 pw4 ph4
  have halign : (((((m ++ q0.map Prod.swap) ++ q1.map Prod.swap)
      ++ q2.map Prod.swap) ++ q3.map Prod.swap) ++ q4.map Prod.swap)
      ++ q5.map Prod.swap
      = m ++ (((((q0 ++ q1) ++ q2) ++ q3) ++ q4) ++ q5).map Prod.swap := by
    simp [List.map_append, List.append_assoc]
  refine ⟨((((q0 ++ q1) ++ q2) ++ q3) ++ q4) ++ q5, ?_, ?_, ?_⟩
  · simp only [attachPass]
    rw [e0, show (maskAll w q0, m ++ q0.map Prod.swap).1 = maskAll w q0 from rfl,
      e1, show (maskAll (maskAll w q0) q1,
        (m ++ q0.map Prod.swap) ++ q1.map Prod.swap).1
        = maskAll (maskAll w q0) q1 from rfl,
      e2, show (maskAll (maskAll (maskAll w q0) q1) q2,
        ((m ++ q0.map Prod.swap) ++ q1.map Prod.swap) ++ q2.map Prod.swap).1
        = maskAll (maskAll (maskAll w q0) q1) q2 from rfl,
      e3, show (maskAll (maskAll (maskAll (maskAll w q0) q1) q2) q3,
        (((m ++ q0.map Prod.swap) ++ q1.map Prod.swap) ++ q2.map Prod.swap)
          ++ q3.map Prod.swap).1
        = maskAll (maskAll (maskAll (maskAll w q0) q1) q2) q3 from rfl,
      e4, show (maskAll (maskAll (maskAll (maskAll (maskAll w q0) q1) q2) q3) q4,
        ((((m ++ q0.map Prod.swap) ++ q1.map Prod.swap) ++ q2.map Prod.swap)
          ++ q3.map Prod.swap) ++ q4.map Prod.swap).1
        = maskAll (maskAll (maskAll (maskAll (maskAll w q0) q1) q2) q3) q4 from rfl,
      e5, maskAll_append, maskAll_append, maskAll_append, maskAll_append,
      maskAll_append, halign]
  · rw [← halign]
    exact pw5
  · rw [← halign]
    exact ph5

theorem map_fst_swap : ∀ l : List (Str × Str),
    (l.map Prod.swap).map Prod.fst = l.map Prod.snd
  | [] => rfl
  | e :: t => by
    rw [List.map_cons, List.map_cons, List.map_cons, map_fst_swap t]
    rfl

/-- `mask_email`, extracted: the masked text is the fold of one global
`str.replace` per map entry over the original text, the entity map lists
exactly the corresponding (placeholder, surface) pairs in order, and the
generated placeholders are bracketed tokens with bracket-free bodies,
pairwise distinct. -/
theorem mask_email_extract (emailText : Str) (docEnts : List Ent) (o : MaskOracles) :
    ∃ ps : List (Str × Str),
      (mask_email emailText docEnts o).1 = maskAll emailText ps
      ∧ (mask_email emailText docEnts o).2 = ps.map Prod.swap
      ∧ (∀ sp ∈ ps, IsPh sp.2)
      ∧ ((ps.map Prod.snd).Pairwise (· ≠ ·)) := by
  have hlabR : ∀ e ∈ resolveNew [] (sortedCandidates docEnts),
      e.label ∈ entityTypes := by
    intro e he
    have h1 := resolveNew_subset _ _ _ he
    exact of_decide_eq_true (List.mem_filter.mp (mem_sortLenDesc h1)).2
  have h1 := nerFold_spec emailText docEnts
  have hm1shape : ∀ e ∈ numberedMap 0 (resolveNew [] (sortedCandidates docEnts)),
      PlainKey entityTypes e.1 ∨ SubKey (str "PHONE") 0 e.1 := by
    intro e he
    obtain ⟨ent, i, hent, -, -, hkey⟩ := numberedMap_keys _ 0 e he
    exact Or.inl ⟨ent.label, i, hlabR ent hent, hkey⟩
  have hm1pw := numberedMap_pairwise _ hlabR 0
  have hm1ph : ∀ e ∈ numberedMap 0 (resolveNew [] (sortedCandidates docEnts)),
      IsPh e.1 := by
    intro e he
    rcases hm1shape e he with ⟨lab, n2, hlab, hkey⟩ | ⟨i, j, hi, -⟩
    · rw [hkey]
      exact isPh_placeholder (entityTypes_facts lab hlab).2.1
        (entityTypes_facts lab hlab).2.2 n2
    · omega
  obtain ⟨psE, eE, sE, pwE, phE⟩ := plainPass_extract (str "EMAIL") entityTypes 0
    ⟨email_label_facts.2.1, email_label_facts.2.2.1, email_label_facts.2.2.2,
      by decide⟩
    email_label_facts.1
    (fun lab hlab => (entityTypes_facts lab hlab).1)
    (o.findEmails (maskAll emailText
      (numberFrom 0 (resolveNew [] (sortedCandidates docEnts)))))
    (maskAll emailText (numberFrom 0 (resolveNew [] (sortedCandidates docEnts))))
    (numberedMap 0 (resolveNew [] (sortedCandidates docEnts)))
    hm1shape hm1pw hm1ph
  have hlabs1 : ∀ lab ∈ str "EMAIL" :: entityTypes, '_' ∉ lab := by
    intro lab hlab
    rcases List.mem_cons.mp hlab with rfl | hlab
    · exact email_label_facts.2.1
    · exact (entityTypes_facts lab hlab).1
  obtain ⟨psP, eP, sP, pwP, phP⟩ := phonePass_extract (str "EMAIL" :: entityTypes)
    hlabs1 o.findPhones
    (maskAll (maskAll emailText
      (numberFrom 0 (resolveNew [] (sortedCandidates docEnts)))) psE)
    (numberedMap 0 (resolveNew [] (sortedCandidates docEnts)) ++ psE.map Prod.swap)
    sE pwE phE
  obtain ⟨psU, eU, sU, pwU, phU⟩ := plainPass_extract (str "URL")
    (str "EMAIL" :: entityTypes) 3
    ⟨url_label_facts.2.1, url_label_facts.2.2.1, url_label_facts.2.2.2.1,
      by decide⟩
    (by
      intro hc
      rcases List.mem_cons.mp hc with hc | hc
      · exact url_label_facts.2.2.2.2 hc
      · exact url_label_facts.1 hc)
    hlabs1
    (o.findUrls (maskAll (maskAll (maskAll emailText
      (numberFrom 0 (resolveNew [] (sortedCandidates docEnts)))) psE) psP))
    (maskAll (maskAll (maskAll emailText
      (numberFrom 0 (resolveNew [] (sortedCandidates docEnts)))) psE) psP)
    ((numberedMap 0 (resolveNew [] (sortedCandidates docEnts))
      ++ psE.map Prod.swap) ++ psP.map Prod.swap)
    sP pwP phP
  have hlabs2 : ∀ lab ∈ str "URL" :: str "EMAIL" :: entityTypes, '_' ∉ lab := by
    intro lab hlab
    rcases List.mem_cons.mp hlab with rfl | hlab
    · exact url_label_facts.2.1
    · exact hlabs1 lab hlab
  obtain ⟨psA, eA, pwA, phA⟩ := attachPass_extract o.findAttach
    (maskAll (maskAll (maskAll (maskAll emailText
      (numberFrom 0 (resolveNew [] (sortedCandidates docEnts)))) psE) psP) psU)
    (((numberedMap 0 (resolveNew [] (sortedCandidates docEnts))
      ++ psE.map Prod.swap) ++ psP.map Prod.swap) ++ psU.map Prod.swap)
    (by
      intro e he i2 n2
      rcases sU e he with hk | hk
      · exact plainKey_ne_sub hk hlabs2 attachment_label_facts.1 i2 n2
      · exact subKey_ne_sub_label hk phone_label_facts.1 attachment_label_facts.1
          phone_label_facts.2.2.2 i2 n2)
    pwU phU
  have halign : ((((numberedMap 0 (resolveNew [] (sortedCandidates docEnts))
      ++ psE.map Prod.swap) ++ psP.map Prod.swap) ++ psU.map Prod.swap)
      ++ psA.map Prod.swap)
      = (((((numberFrom 0 (resolveNew [] (sortedCandidates docEnts)))
        ++ psE) ++ psP) ++ psU) ++ psA).map Prod.swap := by
    rw [numberedMap_eq_swap]
    simp [List.map_append, List.append_assoc]
  have hmain : mask_email emailText docEnts o
      = (maskAll (maskAll (maskAll (maskAll (maskAll emailText
          (numberFrom 0 (resolveNew [] (sortedCandidates docEnts)))) psE) psP) psU) psA,
        (((numberedMap 0 (resolveNew [] (sortedCandidates docEnts))
          ++ psE.map Prod.swap) ++ psP.map Prod.swap) ++ psU.map Prod.swap)
          ++ psA.map Prod.swap) := by
    simp only [mask_email]
    rw [h1]
    rw [show ((maskAll emailText (numberFrom 0 (resolveNew [] (sortedCandidates docEnts))),
        numberedMap 0 (resolveNew [] (sortedCandidates docEnts)),
        resolveSpans [] (sortedCandidates docEnts))).1
      = maskAll emailText (numberFrom 0 (resolveNew [] (sortedCandidates docEnts)))
      from rfl]
    rw [show ((maskAll emailText (numberFrom 0 (resolveNew [] (sortedCandidates docEnts))),
        numberedMap 0 (resolveNew [] (sortedCandidates docEnts)),
        resolveSpans [] (sortedCandidates docEnts))).2.1
      = numberedMap 0 (resolveNew [] (sortedCandidates docEnts)) from rfl]
    rw [eE]
    rw [eP]
    rw [show ((maskAll (maskAll (maskAll emailText
        (numberFrom 0 (resolveNew [] (sortedCandidates docEnts)))) psE) psP,
        (numberedMap 0 (resolveNew [] (sortedCandidates docEnts))
          ++ psE.map Prod.swap) ++ psP.map Prod.swap)).1
      = maskAll (maskAll (maskAll emailText
          (numberFrom 0 (resolveNew [] (sortedCandidates docEnts)))) psE) psP from rfl]
    rw [eU]
    rw [eA]
  refine ⟨(((numberFrom 0 (resolveNew [] (sortedCandidates docEnts))
    ++ psE) ++ psP) ++ psU) ++ psA, ?_, ?_, ?_, ?_⟩
  · rw [hmain]
    simp [maskAll_append]
  · rw [hmain]
    exact halign
  · intro sp hsp
    have hmem : Prod.swap sp ∈ ((((numberedMap 0
        (resolveNew [] (sortedCandidates docEnts))
        ++ psE.map Prod.swap) ++ psP.map Prod.swap) ++ psU.map Prod.swap)
        ++ psA.map Prod.swap) := by
      rw [halign]
      exact List.mem_map_of_mem Prod.swap hsp
    exact phA _ hmem
  · have := pwA
    rw [halign, map_fst_swap] at this
    exact this

/-! ### Helpers for the claim-level theorems -/

/-- Membership after a dict assignment: the entry was already present or
carries the assigned key. -/
theorem mem_insertEntity {m : EntityMap} {k v : Str} {e : Str × Str}
    (h : e ∈ insertEntity m k v) : e ∈ m ∨ e.1 = k := by
  rw [insertEntity] at h
  by_cases hc : m.any (fun e => decide (e.1 = k)) = true
  · rw [if_pos hc] at h
    obtain ⟨e0, he0, heq⟩ := List.mem_map.mp h
    by_cases h0 : e0.1 = k
    · rw [if_pos h0] at heq
      right
      rw [← heq]
    · rw [if_neg h0] at heq
      left
      rw [← heq]
      exact he0
  · rw [if_neg hc] at h
    rcases List.mem_append.mp h with h | h
    · exact Or.inl h
    · right
      rw [List.mem_singleton.mp h]

/-- Every key a regex pass adds to the map is produced by its placeholder
maker. -/
theorem passFold_keys (mk : Nat → Str) : ∀ (ts : List Str) (n : Nat)
    (wm : Str × EntityMap) (e : Str × Str),
    e ∈ (passFold mk n ts wm).2 → e ∈ wm.2 ∨ ∃ j, e.1 = mk j
  | [], _, _, _ => fun h => Or.inl h
  | t :: ts, n, wm, e => fun h => by
    rw [passFold] at h
    rcases passFold_keys mk ts (n + 1) _ e h with h | h
    · rcases mem_insertEntity h with h | h
      · exact Or.inl h
      · exact Or.inr ⟨n, h⟩
    · exact Or.inr h

/-- Every key the phone pass adds to the map has the `[PHONE_i_j]`
sub-variant shape. -/
theorem phonePass_keys (fp : Nat → Str → List Str) (wm : Str × EntityMap)
    (e : Str × Str) (h : e ∈ (phonePass fp wm).2) :
    e ∈ wm.2 ∨ ∃ i j, e.1 = subPlaceholder (str "PHONE") i j := by
  rw [phonePass] at h
  rcases passFold_keys _ _ _ _ e h with h | ⟨j, hj⟩
  · rcases passFold_keys _ _ _ _ e h with h | ⟨j, hj⟩
    · rcases passFold_keys _ _ _ _ e h with h | ⟨j, hj⟩
      · exact Or.inl h
      · exact Or.inr ⟨0, j + 1, hj⟩
    · exact Or.inr ⟨1, j + 1, hj⟩
  · exact Or.inr ⟨2, j + 1, hj⟩

/-- The accept loop preserves pairwise non-overlap of the accepted
intervals. -/
theorem nerStep_pairwise : ∀ (l : List Ent) (st : Str × EntityMap × List (Nat × Nat)),
    st.2.2.Pairwise (fun a b => ¬ (a.1 < b.2 ∧ a.2 > b.1)) →
    ((l.foldl nerStep st).2.2).Pairwise (fun a b => ¬ (a.1 < b.2 ∧ a.2 > b.1))
  | [], _ => fun h => h
  | e :: t, st => fun h => by
    show ((t.foldl nerStep (nerStep st e)).2.2).Pairwise _
    apply nerStep_pairwise t
    rw [nerStep]
    by_cases hov : overlapsAny st.2.2 e.startChar e.endChar = true
    · rw [if_pos hov]
      exact h
    · rw [if_neg hov]
      show (st.2.2 ++ [(e.startChar, e.endChar)]).Pairwise _
      rw [List.pairwise_append]
      refine ⟨h, by simp, ?_⟩
      intro a ha b hb
      rw [List.mem_singleton.mp hb]
      intro hc
      apply hov
      rw [overlapsAny, List.any_eq_true]
      refine ⟨a, ha, ?_⟩
      simp only [Bool.and_eq_true, decide_eq_true_eq]
      exact ⟨hc.2, hc.1⟩

/-- Split a list at the first occurrence of a character. -/
theorem splitFirst {c : Char} : ∀ {l : Str}, c ∈ l →
    ∃ l1 l2, l = l1 ++ c :: l2 ∧ c ∉ l1
  | [], h => absurd h (List.not_mem_nil c)
  | d :: t, h => by
    by_cases hd : d = c
    · exact ⟨[], t, by simp [hd], List.not_mem_nil c⟩
    · rcases List.mem_cons.mp h with h1 | h1
      · exact absurd h1.symm hd
      · obtain ⟨l1, l2, hl, hn⟩ := splitFirst h1
        refine ⟨d :: l1, l2, by rw [List.cons_append, hl], ?_⟩
        intro hm
        rcases List.mem_cons.mp hm with hm | hm
        · exact hd hm.symm
        · exact hn hm

/-- An occurrence in a cons either starts at the head or lies in the
tail. -/
theorem occurs_cons_cases {s : Str} {c : Char} {R : Str}
    (h : Occurs s (c :: R)) : isPre s (c :: R) = true ∨ Occurs s R := by
  obtain ⟨a, b, hab⟩ := h
  cases a with
  | nil =>
    left
    rw [List.nil_append] at hab
    rw [hab]
    exact isPre_self_append s b
  | cons a0 a2 =>
    right
    rw [List.cons_append] at hab
    exact ⟨a2, b, (List.cons.inj hab).2⟩

/-- A `]`-free string occurring in a placeholder followed by anything
occurs in the placeholder or in the rest: it cannot straddle the
placeholder's closing bracket. -/
theorem occurs_ph_append {s ph X : Str} (hph : IsPh ph) (hrb : ']' ∉ s)
    (hno : ¬ Occurs s ph) (hX : ¬ Occurs s X) : ¬ Occurs s (ph ++ X) := by
  intro hocc
  obtain ⟨body, hbody, hblb, hbrb⟩ := hph
  obtain ⟨a, b, hab⟩ := hocc
  have hqrb : ']' ∉ '[' :: body := by
    intro hm
    rcases List.mem_cons.mp hm with hm | hm
    · exact absurd hm (by decide)
    · exact hbrb hm
  have hre : ('[' :: body) ++ ']' :: X = a ++ (s ++ b) := by
    rw [← List.append_assoc, ← hab, hbody]
    simp [List.append_assoc]
  by_cases hc : ']' ∈ a
  · obtain ⟨a1, a2, ha, ha1⟩ := splitFirst hc
    have hre2 : a1 ++ ']' :: (a2 ++ (s ++ b)) = ('[' :: body) ++ ']' :: X := by
      rw [hre, ha]
      simp [List.append_assoc]
    obtain ⟨-, h2⟩ := append_cons_inj ha1 hqrb hre2
    refine hX ⟨a2, b, ?_⟩
    rw [List.append_assoc]
    exact h2.symm
  · have hmem : ']' ∈ a ++ (s ++ b) := by
      rw [← hre]
      simp
    have hb : ']' ∈ b := by
      rcases List.mem_append.mp hmem with hm | hm
      · exact absurd hm hc
      · rcases List.mem_append.mp hm with hm | hm
        · exact absurd hm hrb
        · exact hm
    obtain ⟨b1, b2, hbe, hb1⟩ := splitFirst hb
    have hre2 : (a ++ (s ++ b1)) ++ ']' :: b2 = ('[' :: body) ++ ']' :: X := by
      rw [hre, hbe]
      simp [List.append_assoc]
    have hfree : ']' ∉ a ++ (s ++ b1) := by
      intro hm
      rcases List.mem_append.mp hm with hm | hm
      · exact hc hm
      · rcases List.mem_append.mp hm with hm | hm
        · exact hrb hm
        · exact hb1 hm
    obtain ⟨h1, -⟩ := append_cons_inj hfree hqrb hre2
    apply hno
    rw [hbody]
    refine occurs_append_right [']'] ⟨a, b1, ?_⟩
    rw [List.append_assoc]
    exact h1.symm

/-- A `[`-free prefix of a replaced text was already a prefix of the
original text: the rewrite only inserts strings that start with `[`. -/
theorem isPre_replaceAll_to_orig {p : Char} {ps ph : Str} (hph : IsPh ph) :
    ∀ (t u : Str), u ≠ [] → '[' ∉ u →
      isPre u (replaceAll t (p :: ps) ph) = true → isPre u t = true
  | [], u => by
    intro hne hlb h
    rw [replaceAll_nil] at h
    cases u with
    | nil => exact absurd rfl hne
    | cons uc u2 => simp [isPre] at h
  | c :: t2, u => by
    intro hne hlb h
    by_cases hp : isPre (p :: ps) (c :: t2) = true
    · rw [replaceAll_pos ph hp] at h
      obtain ⟨body, hbody, -, -⟩ := hph
      cases u with
      | nil => exact absurd rfl hne
      | cons uc u2 =>
        rw [hbody] at h
        simp only [List.append_assoc, List.cons_append] at h
        simp only [isPre, Bool.and_eq_true, beq_iff_eq] at h
        exact absurd (show '[' ∈ uc :: u2 by
          rw [← h.1]
          exact List.mem_cons_self _ _) hlb
    · rw [replaceAll_neg ph hp] at h
      cases u with
      | nil => exact absurd rfl hne
      | cons uc u2 =>
        simp only [isPre, Bool.and_eq_true, beq_iff_eq] at h ⊢
        refine ⟨h.1, ?_⟩
        cases u2 with
        | nil => rfl
        | cons u2c u3 =>
          exact isPre_replaceAll_to_orig hph t2 (u2c :: u3) (by simp)
            (fun hm => hlb (List.mem_cons_of_mem _ hm)) h.2

/-- After replacing every occurrence of a bracket-free pattern by a
placeholder that does not contain it, the pattern no longer occurs: the
untouched pieces held no occurrence, and a new occurrence can neither sit
inside the placeholder nor straddle one of its brackets. -/
theorem replaceAll_no_reoccur : ∀ (n : Nat) (w : Str) (p : Char) (ps ph : Str),
    w.length ≤ n → '[' ∉ p :: ps → ']' ∉ p :: ps → IsPh ph →
    ¬ Occurs (p :: ps) ph → ¬ Occurs (p :: ps) (replaceAll w (p :: ps) ph)
  | 0, w => by
    intro p ps ph hn hlb hrb hph hno hocc
    have hw : w = [] := List.length_eq_zero.mp (Nat.le_zero.mp hn)
    rw [hw, replaceAll_nil] at hocc
    obtain ⟨a, b, hh⟩ := hocc
    simp at hh
  | n + 1, w => by
    intro p ps ph hn hlb hrb hph hno hocc
    cases w with
    | nil =>
      rw [replaceAll_nil] at hocc
      obtain ⟨a, b, hh⟩ := hocc
      simp at hh
    | cons c t =>
      by_cases hp : isPre (p :: ps) (c :: t) = true
      · rw [replaceAll_pos ph hp] at hocc
        have hlen : (List.drop ps.length t).length ≤ n := by
          simp only [List.length_cons] at hn
          rw [List.length_drop]
          omega
        exact occurs_ph_append hph hrb hno
          (replaceAll_no_reoccur n (List.drop ps.length t) p ps ph hlen hlb hrb
            hph hno)
          hocc
      · rw [replaceAll_neg ph hp] at hocc
        rcases occurs_cons_cases hocc with h0 | hR
        · simp only [isPre, Bool.and_eq_true, beq_iff_eq] at h0
          cases hps : ps with
          | nil =>
            apply hp
            simp [isPre, h0.1, hps]
          | cons p2 ps2 =>
            rw [hps] at h0 hlb
            have h2 := isPre_replaceAll_to_orig hph t (p2 :: ps2) (by simp)
              (fun hm => hlb (List.mem_cons_of_mem _ hm)) h0.2
            apply hp
            rw [hps]
            simp only [isPre, Bool.and_eq_true, beq_iff_eq]
            exact ⟨h0.1, h2⟩
        · have hlen : t.length ≤ n := by
            simp only [List.length_cons] at hn
            omega
          exact replaceAll_no_reoccur n t p ps ph hlen hlb hrb hph hno hR

/-! ### The claims -/

/-- C2: for every document and recognizer output, the accepted intervals of
the entity-recognizer pass (`masked_spans`) are pairwise non-overlapping
under the half-open overlap test `a.start < b.end and a.end > b.start`. -/
theorem c2_accepted_spans_non_overlap (emailText : Str) (docEnts : List Ent) :
    ((nerFold emailText docEnts).2.2).Pairwise
      (fun a b => ¬ (a.1 < b.2 ∧ a.2 > b.1)) := by
  rw [nerFold]
  exact nerStep_pairwise _ _ List.Pairwise.nil

/-- C3: candidates are sorted by surface length descending (stable, so ties
keep detection order) and accepted greedily; for two overlapping enabled
candidates with the first strictly longer, the sorted order puts the longer
first from either detection order, and the run accepts only the longer span,
assigning it a placeholder and recording only its interval. -/
theorem c3_longest_match_precedence (doc : Str) (c1 c2 : Ent)
    (hlen : c2.text.length < c1.text.length)
    (hl1 : c1.label ∈ entityTypes) (hl2 : c2.label ∈ entityTypes)
    (hov : c2.startChar < c1.endChar ∧ c2.endChar > c1.startChar) :
    sortedCandidates [c1, c2] = [c1, c2]
    ∧ sortedCandidates [c2, c1] = [c1, c2]
    ∧ ∀ ents : List Ent, sortedCandidates ents = [c1, c2] →
        (nerFold doc ents).2.2 = [(c1.startChar, c1.endChar)]
        ∧ (nerFold doc ents).2.1 = [(placeholder c1.label 1, c1.text)] := by
  have hfilter1 : List.filter (fun e => decide (e.label ∈ entityTypes)) [c1, c2]
      = [c1, c2] := by
    simp [List.filter_cons, hl1, hl2]
  have hfilter2 : List.filter (fun e => decide (e.label ∈ entityTypes)) [c2, c1]
      = [c2, c1] := by
    simp [List.filter_cons, hl1, hl2]
  have hs1 : sortedCandidates [c1, c2] = [c1, c2] := by
    rw [sortedCandidates, hfilter1]
    show insLen (fun e => e.text.length) c1
      (insLen (fun e => e.text.length) c2 []) = [c1, c2]
    rw [show insLen (fun e => e.text.length) c2 [] = [c2] from rfl]
    rw [insLen, if_pos (by omega : c2.text.length ≤ c1.text.length)]
  have hs2 : sortedCandidates [c2, c1] = [c1, c2] := by
    rw [sortedCandidates, hfilter2]
    show insLen (fun e => e.text.length) c2
      (insLen (fun e => e.text.length) c1 []) = [c1, c2]
    rw [show insLen (fun e => e.text.length) c1 [] = [c1] from rfl]
    rw [insLen, if_neg (by omega : ¬ c1.text.length ≤ c2.text.length)]
    rw [show insLen (fun e => e.text.length) c2 [] = [c2] from rfl]
  refine ⟨hs1, hs2, ?_⟩
  intro ents hents
  rw [nerFold, hents]
  have h1 : nerStep (doc, ([] : EntityMap), ([] : List (Nat × Nat))) c1
      = (replaceAll doc c1.text (placeholder c1.label 1),
         [(placeholder c1.label 1, c1.text)], [(c1.startChar, c1.endChar)]) := by
    rw [nerStep, if_neg (by simp [overlapsAny])]
    rfl
  have h2step : List.foldl nerStep (doc, ([] : EntityMap), ([] : List (Nat × Nat)))
      [c1, c2] = nerStep (nerStep (doc, [], []) c1) c2 := rfl
  have hcond : overlapsAny [(c1.startChar, c1.endChar)] c2.startChar c2.endChar
      = true := by
    simp only [overlapsAny, List.any_cons, List.any_nil, Bool.or_false,
      Bool.and_eq_true, decide_eq_true_eq]
    exact ⟨hov.1, hov.2⟩
  rw [h2step, h1, nerStep, if_pos hcond]
  exact ⟨rfl, rfl⟩

/-- C3 witness: the spec's own example, `"Ramona Salamat Pars"` (19 chars)
versus the contained `"Ramona"` (6 chars) at overlapping offsets. -/
theorem c3_witness :
    ((str "Ramona").length < (str "Ramona Salamat Pars").length
      ∧ str "PERSON" ∈ entityTypes)
    ∧ sortedCandidates [⟨str "Ramona Salamat Pars", 0, 19, str "PERSON"⟩,
          ⟨str "Ramona", 0, 6, str "PERSON"⟩]
        = [⟨str "Ramona Salamat Pars", 0, 19, str "PERSON"⟩,
          ⟨str "Ramona", 0, 6, str "PERSON"⟩]
    ∧ (nerFold (str "Ramona Salamat Pars is waiting")
          [⟨str "Ramona Salamat Pars", 0, 19, str "PERSON"⟩,
           ⟨str "Ramona", 0, 6, str "PERSON"⟩]).2.2 = [(0, 19)]
    ∧ (nerFold (str "Ramona Salamat Pars is waiting")
          [⟨str "Ramona Salamat Pars", 0, 19, str "PERSON"⟩,
           ⟨str "Ramona", 0, 6, str "PERSON"⟩]).2.1
        = [(placeholder (str "PERSON") 1, str "Ramona Salamat Pars")] := by
  have h := c3_longest_match_precedence (str "Ramona Salamat Pars is waiting")
    ⟨str "Ramona Salamat Pars", 0, 19, str "PERSON"⟩
    ⟨str "Ramona", 0, 6, str "PERSON"⟩
    (by decide) (by decide) (by decide) (by decide)
  exact ⟨⟨by decide, by decide⟩, h.1, (h.2.2 _ h.1).1, (h.2.2 _ h.1).2⟩

/-- C4 counterexample: the assigner does NOT walk the accepted spans in
start_offset ascending order.  With "BB" at offset 0 and "AAAA" at offset 6,
start-offset order would number "BB" first as [PERSON_1]; the run numbers
the longer "AAAA" first, so "BB" becomes [PERSON_2] and no [PERSON_1] key
exists. -/
theorem c4_counterexample :
    ((nerFold (str "BB is AAAA")
        [⟨str "BB", 0, 2, str "PERSON"⟩, ⟨str "AAAA", 6, 10, str "ORG"⟩]).2.1).map
        Prod.fst = [str "[ORG_1]", str "[PERSON_2]"]
    ∧ str "[PERSON_1]" ∉ ((nerFold (str "BB is AAAA")
        [⟨str "BB", 0, 2, str "PERSON"⟩, ⟨str "AAAA", 6, 10, str "ORG"⟩]).2.1).map
        Prod.fst := by
  decide

/-- C4 (amended): the assigner walks the accepted spans in the resolver's
processing order — surface-length descending, stable — not start_offset
ascending; the k-th accepted span (0-based) gets key [label_(k+1)] from one
global counter independent of label, and the phone pass uses the sub-variant
[PHONE_i_j] format. -/
theorem c4_numbering_follows_processing_order :
    (∀ (emailText : Str) (docEnts : List Ent),
      (nerFold emailText docEnts).2.1
        = numberedMap 0 (resolveNew [] (sortedCandidates docEnts)))
    ∧ (∀ (fp : Nat → Str → List Str) (wm : Str × EntityMap) (e : Str × Str),
        e ∈ (phonePass fp wm).2 →
        e ∈ wm.2 ∨ ∃ i j, e.1 = subPlaceholder (str "PHONE") i j) := by
  constructor
  · intro emailText docEnts
    rw [nerFold_spec]
  · exact phonePass_keys

/-- C4 witness: the numbering equation at a one-entity document, and the
phone-pass key shape at a concrete phone match. -/
theorem c4_witness :
    (nerFold (str "Hi Bob") [⟨str "Bob", 3, 6, str "PERSON"⟩]).2.1
      = numberedMap 0 (resolveNew []
          (sortedCandidates [⟨str "Bob", 3, 6, str "PERSON"⟩]))
    ∧ (∃ i j, str "[PHONE_0_1]" = subPlaceholder (str "PHONE") i j) := by
  have h := c4_numbering_follows_processing_order
  refine ⟨h.1 (str "Hi Bob") [⟨str "Bob", 3, 6, str "PERSON"⟩], ?_⟩
  have h2 := h.2
    (fun i w => if i = 0 ∧ w = str "Ring 555 123 4567"
      then [str "555 123 4567"] else [])
    (str "Ring 555 123 4567", ([] : EntityMap))
    (str "[PHONE_0_1]", str "555 123 4567") (by decide)
  exact h2.resolve_left (by decide)

/-- C5 counterexample: with "John" accepted for two different spans the map
does get one entry per span, but the masked output shows every occurrence
replaced with the EARLIEST placeholder [PERSON_1]; the newest [PERSON_2]
occurs nowhere in the masked text, contrary to the claim. -/
theorem c5_counterexample :
    (mask_email (str "John met John")
        [⟨str "John", 0, 4, str "PERSON"⟩, ⟨str "John", 9, 13, str "PERSON"⟩]
        noOracles).2
      = [(str "[PERSON_1]", str "John"), (str "[PERSON_2]", str "John")]
    ∧ (mask_email (str "John met John")
        [⟨str "John", 0, 4, str "PERSON"⟩, ⟨str "John", 9, 13, str "PERSON"⟩]
        noOracles).1 = str "[PERSON_1] met [PERSON_1]"
    ∧ hasSub ((mask_email (str "John met John")
        [⟨str "John", 0, 4, str "PERSON"⟩, ⟨str "John", 9, 13, str "PERSON"⟩]
        noOracles).1) (str "[PERSON_2]") = false := by
  decide

/-- C5 (amended): when the same surface text is accepted for two different
spans, the assigner creates a new placeholder entry per span; since the
first replace-all already consumed every occurrence of the surface, the
second replace is a no-op whenever the surface does not occur inside the
earlier placeholder token, so the masked text equals the first replacement
alone and shows the EARLIEST placeholder at every occurrence, never the
newest.  When the surface does occur inside the earlier placeholder (a
single digit, say), the second replace instead rewrites the inside of the
already-placed placeholder tokens: the later key then appears in the
output, the earlier tokens are corrupted, and the round trip fails. -/
theorem c5_duplicate_surface_new_entries (doc : Str) (e1 e2 : Ent)
    (hl1 : e1.label ∈ entityTypes) (hl2 : e2.label ∈ entityTypes)
    (ht : e2.text = e1.text) (hne : e1.text ≠ [])
    (hlb : '[' ∉ e1.text) (hrb : ']' ∉ e1.text)
    (hov : overlapsAny [(e1.startChar, e1.endChar)] e2.startChar e2.endChar
      = false)
    (hno : hasSub (placeholder e1.label 1) e1.text = false) :
    ((nerFold doc [e1, e2]).2.1
        = [(placeholder e1.label 1, e1.text), (placeholder e2.label 2, e1.text)]
      ∧ (nerFold doc [e1, e2]).1
        = replaceAll doc e1.text (placeholder e1.label 1))
    ∧ ((nerFold (str "1 and 1")
          [⟨str "1", 0, 1, str "CARDINAL"⟩, ⟨str "1", 6, 7, str "CARDINAL"⟩]).1
        = str "[CARDINAL_[CARDINAL_2]] and [CARDINAL_[CARDINAL_2]]"
      ∧ hasSub (str "[CARDINAL_[CARDINAL_2]] and [CARDINAL_[CARDINAL_2]]")
          (str "[CARDINAL_2]") = true
      ∧ unmaskWithMap (str "[CARDINAL_[CARDINAL_2]] and [CARDINAL_[CARDINAL_2]]")
          ((nerFold (str "1 and 1")
            [⟨str "1", 0, 1, str "CARDINAL"⟩,
             ⟨str "1", 6, 7, str "CARDINAL"⟩]).2.1)
        ≠ str "1 and 1") := by
  refine ⟨?_, by decide⟩
  have hfacts := entityTypes_facts e1.label hl1
  have hfacts2 := entityTypes_facts e2.label hl2
  have hnoO : ¬ Occurs e1.text (placeholder e1.label 1) := not_occurs_iff.mp hno
  have hphIs : IsPh (placeholder e1.label 1) :=
    isPh_placeholder hfacts.2.1 hfacts.2.2 1
  have hnoW : ¬ Occurs e1.text
      (replaceAll doc e1.text (placeholder e1.label 1)) := by
    cases htxt : e1.text with
    | nil => exact absurd htxt hne
    | cons p ps =>
      rw [htxt] at hlb hrb hnoO
      exact replaceAll_no_reoccur doc.length doc p ps (placeholder e1.label 1)
        (Nat.le_refl _) hlb hrb hphIs hnoO
  have hne12 : placeholder e1.label 1 ≠ placeholder e2.label 2 := by
    intro hq
    exact absurd (placeholder_inj hfacts.1 hfacts2.1 hq).2 (by decide)
  have hins : insertEntity [(placeholder e1.label 1, e1.text)]
      (placeholder e2.label 2) e1.text
      = [(placeholder e1.label 1, e1.text),
         (placeholder e2.label 2, e1.text)] := by
    rw [insertEntity, if_neg (by simp [hne12])]
    rfl
  have hfilter : List.filter (fun e => decide (e.label ∈ entityTypes)) [e1, e2]
      = [e1, e2] := by
    simp [List.filter_cons, hl1, hl2]
  have hsorted : sortedCandidates [e1, e2] = [e1, e2] := by
    rw [sortedCandidates, hfilter]
    show insLen (fun e => e.text.length) e1
      (insLen (fun e => e.text.length) e2 []) = [e1, e2]
    rw [show insLen (fun e => e.text.length) e2 [] = [e2] from rfl]
    rw [insLen, if_pos (by rw [ht] : e2.text.length ≤ e1.text.length)]
  have h1 : nerStep (doc, ([] : EntityMap), ([] : List (Nat × Nat))) e1
      = (replaceAll doc e1.text (placeholder e1.label 1),
         [(placeholder e1.label 1, e1.text)], [(e1.startChar, e1.endChar)]) := by
    rw [nerStep, if_neg (by simp [overlapsAny])]
    rfl
  have hcond : ¬ (overlapsAny [(e1.startChar, e1.endChar)] e2.startChar
      e2.endChar = true) := by
    simp [hov]
  have h2 : nerStep (replaceAll doc e1.text (placeholder e1.label 1),
      [(placeholder e1.label 1, e1.text)], [(e1.startChar, e1.endChar)]) e2
      = (replaceAll doc e1.text (placeholder e1.label 1),
         [(placeholder e1.label 1, e1.text), (placeholder e2.label 2, e1.text)],
         [(e1.startChar, e1.endChar), (e2.startChar, e2.endChar)]) := by
    rw [nerStep, if_neg hcond]
    show (replaceAll (replaceAll doc e1.text (placeholder e1.label 1)) e2.text
        (placeholder e2.label 2),
      insertEntity [(placeholder e1.label 1, e1.text)] (placeholder e2.label 2)
        e2.text,
      [(e1.startChar, e1.endChar), (e2.startChar, e2.endChar)]) = _
    rw [ht, hins, replaceAll_of_not_occurs hnoW]
  have hstep : nerFold doc [e1, e2]
      = (replaceAll doc e1.text (placeholder e1.label 1),
         [(placeholder e1.label 1, e1.text), (placeholder e2.label 2, e1.text)],
         [(e1.startChar, e1.endChar), (e2.startChar, e2.endChar)]) := by
    rw [nerFold, hsorted]
    rw [show List.foldl nerStep (doc, ([] : EntityMap), ([] : List (Nat × Nat)))
        [e1, e2] = nerStep (nerStep (doc, ([] : EntityMap),
          ([] : List (Nat × Nat))) e1) e2 from rfl]
    rw [h1, h2]
  exact ⟨by rw [hstep], by rw [hstep]⟩

/-- C5 witness: two accepted spans with the same surface "Ann": the map
gains both entries and the masked text is the first replacement alone. -/
theorem c5_witness :
    (nerFold (str "Ann saw Ann")
        [⟨str "Ann", 0, 3, str "PERSON"⟩, ⟨str "Ann", 8, 11, str "PERSON"⟩]).2.1
      = [(placeholder (str "PERSON") 1, str "Ann"),
         (placeholder (str "PERSON") 2, str "Ann")]
    ∧ (nerFold (str "Ann saw Ann")
        [⟨str "Ann", 0, 3, str "PERSON"⟩, ⟨str "Ann", 8, 11, str "PERSON"⟩]).1
      = replaceAll (str "Ann saw Ann") (str "Ann")
          (placeholder (str "PERSON") 1) :=
  (c5_duplicate_surface_new_entries (str "Ann saw Ann")
    ⟨str "Ann", 0, 3, str "PERSON"⟩ ⟨str "Ann", 8, 11, str "PERSON"⟩
    (by decide) (by decide) (by decide) (by decide) (by decide) (by decide)
    (by decide) (by decide)).1

/-- C6: unmask with an id whose mapping was never stored and no explicit
map returns the typed file-not-found error pair — the error message naming
the missing mapping file together with `none` — and the message is not the
empty string. -/
theorem c6_missing_mapping_error (store : Str → Option EntityMap)
    (maskedEmail : Str) (emailId : Str)
    (h : store (getMappingFilename emailId) = none) :
    unmask_email store maskedEmail (some emailId) none
      = (str "Error: Mapping file '" ++ getMappingFilename emailId
          ++ str "' not found.", none)
    ∧ (unmask_email store maskedEmail (some emailId) none).1 ≠ [] := by
  have e1 : unmask_email store maskedEmail (some emailId) none
      = match store (getMappingFilename emailId) with
        | none => (str "Error: Mapping file '" ++ getMappingFilename emailId
            ++ str "' not found.", none)
        | some em => (unmaskWithMap maskedEmail em, some em) := rfl
  rw [e1, h]
  refine ⟨rfl, ?_⟩
  simp [str]

/-- C6 witness: a store with nothing saved, at id "42". -/
theorem c6_witness :
    ((fun _ : Str => (none : Option EntityMap))
        (getMappingFilename (str "42")) = none)
    ∧ unmask_email (fun _ => none) (str "[PERSON_1] hi") (some (str "42")) none
      = (str "Error: Mapping file 'mappings/entity_mapping_42.json' not found.",
          none) := by
  refine ⟨rfl, ?_⟩
  have h := c6_missing_mapping_error (fun _ => none) (str "[PERSON_1] hi")
    (str "42") rfl
  rw [h.1]
  decide

/-- C7 counterexample: on a document already containing the placeholder
text [PERSON_1], mask_email surfaces no error: it produces a normal masked
result whose map key collides with document text, and unmasking that result
with the returned map corrupts the round trip ("Bob and Bob" instead of
"Bob and [PERSON_1]"). -/
theorem c7_counterexample :
    hasSub (str "Bob and [PERSON_1]") (str "[PERSON_1]") = true
    ∧ (mask_email (str "Bob and [PERSON_1]")
        [⟨str "Bob", 0, 3, str "PERSON"⟩] noOracles).2
      = [(str "[PERSON_1]", str "Bob")]
    ∧ (mask_email (str "Bob and [PERSON_1]")
        [⟨str "Bob", 0, 3, str "PERSON"⟩] noOracles).1
      = str "[PERSON_1] and [PERSON_1]"
    ∧ (unmask_email (fun _ => none)
        (mask_email (str "Bob and [PERSON_1]")
          [⟨str "Bob", 0, 3, str "PERSON"⟩] noOracles).1 none
        (some (mask_email (str "Bob and [PERSON_1]")
          [⟨str "Bob", 0, 3, str "PERSON"⟩] noOracles).2)).1
      = str "Bob and Bob" := by
  decide

/-- C7 (amended): mask_email has no placeholder-collision check and no
error path: on every input, colliding or not, it returns an ordinary masked
result — a pure sequence of substring rewrites together with the matching
map. -/
theorem c7_no_collision_error (emailText : Str) (docEnts : List Ent)
    (o : MaskOracles) :
    ∃ ps : List (Str × Str),
      (mask_email emailText docEnts o).1 = maskAll emailText ps
      ∧ (mask_email emailText docEnts o).2 = ps.map Prod.swap := by
  obtain ⟨ps, h1, h2, -, -⟩ := mask_email_extract emailText docEnts o
  exact ⟨ps, h1, h2⟩

/-- C8 counterexample: a telephone-pattern match in fax context is still
keyed [PHONE_0_1]; no FAX labeling exists anywhere in the run. -/
theorem c8_counterexample :
    hasSub (str "Fax: 021 443 8219") (str "Fax") = true
    ∧ (mask_email (str "Fax: 021 443 8219") []
        ⟨fun _ => [],
          fun i w => if i = 0 ∧ w = str "Fax: 021 443 8219"
            then [str "021 443 8219"] else [],
          fun _ => [], fun _ _ => []⟩).2
      = [(str "[PHONE_0_1]", str "021 443 8219")]
    ∧ (mask_email (str "Fax: 021 443 8219") []
        ⟨fun _ => [],
          fun i w => if i = 0 ∧ w = str "Fax: 021 443 8219"
            then [str "021 443 8219"] else [],
          fun _ => [], fun _ _ => []⟩).1
      = str "Fax: [PHONE_0_1]" := by
  decide

/-- C8 (amended): every key the phone pass creates has the [PHONE_i_j]
shape, independent of any surrounding context; no FAX label is ever
produced. -/
theorem c8_phone_label_only (fp : Nat → Str → List Str) (wm : Str × EntityMap)
    (e : Str × Str) (h : e ∈ (phonePass fp wm).2) :
    e ∈ wm.2 ∨ ∃ i j, e.1 = subPlaceholder (str "PHONE") i j :=
  phonePass_keys fp wm e h

/-- C8 witness: the phone pass on a fax-context document, with the entry it
creates. -/
theorem c8_witness :
    (str "[PHONE_0_1]", str "021 443 8219") ∈ (phonePass
        (fun i w => if i = 0 ∧ w = str "Fax to 021 443 8219"
          then [str "021 443 8219"] else [])
        (str "Fax to 021 443 8219", ([] : EntityMap))).2
    ∧ ((str "[PHONE_0_1]", str "021 443 8219") ∈ ([] : EntityMap)
        ∨ ∃ i j, str "[PHONE_0_1]" = subPlaceholder (str "PHONE") i j) :=
  ⟨by decide, c8_phone_label_only
    (fun i w => if i = 0 ∧ w = str "Fax to 021 443 8219"
      then [str "021 443 8219"] else [])
    (str "Fax to 021 443 8219", ([] : EntityMap))
    (str "[PHONE_0_1]", str "021 443 8219") (by decide)⟩

/-- C9: unmasking processes the placeholder keys in length-descending
order: the rewrite is the replace-all fold over the length-desc sorted key
list, that list is length-sorted and a permutation of the map, and on the
spec's own example key [PERSON_10] is consumed before [PERSON_1] ever
applies, leaving the intended text. -/
theorem c9_unmask_longest_key_first :
    (∀ (maskedEmail : Str) (m : EntityMap),
      unmaskWithMap maskedEmail m
        = (sortKeysDesc m).foldl (fun w e => replaceAll w e.1 e.2) maskedEmail)
    ∧ (∀ m : EntityMap,
        (sortKeysDesc m).Pairwise (fun a b => b.1.length ≤ a.1.length))
    ∧ (∀ m : EntityMap, (sortKeysDesc m).Perm m)
    ∧ unmaskWithMap (str "x [PERSON_10]")
        [(str "[PERSON_1]", str "B"), (str "[PERSON_10]", str "A")]
      = str "x A" := by
  refine ⟨fun _ _ => rfl, fun m => ?_, fun m => sortLenDesc_perm _ m, by decide⟩
  exact sortLenDesc_sorted (fun e : Str × Str => e.1.length) m

/-- C10: when one phone pattern matches the same literal text twice, the
first replace-all consumes both occurrences, yet the second match still
inserts a fresh entry: the returned map carries the dead key [PHONE_0_2]
that occurs nowhere in the masked text, and unmasking with the full map
still restores the document. -/
theorem c10_dead_map_entry :
    (mask_email (str "Call 123 456 7890 or 123 456 7890 now") []
        ⟨fun _ => [],
          fun i w => if i = 0 ∧ w = str "Call 123 456 7890 or 123 456 7890 now"
            then [str "123 456 7890", str "123 456 7890"] else [],
          fun _ => [], fun _ _ => []⟩).2
      = [(str "[PHONE_0_1]", str "123 456 7890"),
         (str "[PHONE_0_2]", str "123 456 7890")]
    ∧ (mask_email (str "Call 123 456 7890 or 123 456 7890 now") []
        ⟨fun _ => [],
          fun i w => if i = 0 ∧ w = str "Call 123 456 7890 or 123 456 7890 now"
            then [str "123 456 7890", str "123 456 7890"] else [],
          fun _ => [], fun _ _ => []⟩).1
      = str "Call [PHONE_0_1] or [PHONE_0_1] now"
    ∧ hasSub (str "Call [PHONE_0_1] or [PHONE_0_1] now") (str "[PHONE_0_2]")
      = false
    ∧ unmaskWithMap (str "Call [PHONE_0_1] or [PHONE_0_1] now")
        [(str "[PHONE_0_1]", str "123 456 7890"),
         (str "[PHONE_0_2]", str "123 456 7890")]
      = str "Call 123 456 7890 or 123 456 7890 now" := by
  decide

/-- C1 (amended): the round trip holds under the spec's side conditions —
no two accepted surfaces identical or substrings of one another (hsurf),
no surface a substring of a generated placeholder (hsk) — strengthened by
two further conditions the claim omits and without which it fails (see
c1_counterexample): no generated placeholder already occurs in the original
document (hkd), and surfaces contain no square brackets (hbr).  Unmasking
the mask call's masked text with its returned entity map, whether the map
is passed explicitly or (with app.py's signature) alongside any id and
store, restores the document exactly. -/
theorem c1_round_trip (emailText : Str) (docEnts : List Ent) (o : MaskOracles)
    (store : Str → Option EntityMap) (emailId : Option Str)
    (_hsurf : ∀ e ∈ (mask_email emailText docEnts o).2,
      ∀ e2 ∈ (mask_email emailText docEnts o).2,
      e.1 ≠ e2.1 → hasSub e2.2 e.2 = false)
    (hsk : ∀ e ∈ (mask_email emailText docEnts o).2,
      ∀ e2 ∈ (mask_email emailText docEnts o).2,
      hasSub e2.1 e.2 = false)
    (hkd : ∀ e ∈ (mask_email emailText docEnts o).2,
      hasSub emailText e.1 = false)
    (hbr : ∀ e ∈ (mask_email emailText docEnts o).2,
      '[' ∉ e.2 ∧ ']' ∉ e.2) :
    (unmask_email store (mask_email emailText docEnts o).1 emailId
      (some (mask_email emailText docEnts o).2)).1 = emailText := by
  obtain ⟨ps, h1, h2, hph, hpw⟩ := mask_email_extract emailText docEnts o
  have hswap : ∀ sp ∈ ps, Prod.swap sp ∈ (mask_email emailText docEnts o).2 := by
    intro sp hsp
    rw [h2]
    exact List.mem_map_of_mem _ hsp
  have hunm : (unmask_email store (mask_email emailText docEnts o).1 emailId
      (some (mask_email emailText docEnts o).2)).1
      = unmaskWithMap (mask_email emailText docEnts o).1
          (mask_email emailText docEnts o).2 := by
    cases emailId with
    | none => rfl
    | some id => rfl
  rw [hunm, h1]
  show (sortKeysDesc (mask_email emailText docEnts o).2).foldl
      (fun w kv => replaceAll w kv.1 kv.2) (maskAll emailText ps) = emailText
  apply maskAll_unmask emailText ps
  · rw [h2]
    exact sortLenDesc_perm _ _
  · intro sp hsp
    exact hbr _ (hswap sp hsp)
  · exact hph
  · intro sp hsp sp2 hsp2
    exact not_occurs_iff.mp (hsk _ (hswap sp hsp) _ (hswap sp2 hsp2))
  · intro sp hsp
    exact not_occurs_iff.mp (hkd _ (hswap sp hsp))
  · exact hpw

/-- C1 witness: a one-entity document satisfying every side condition; the
round trip restores it. -/
theorem c1_witness :
    (unmask_email (fun _ => none)
      (mask_email (str "Hi Bob") [⟨str "Bob", 3, 6, str "PERSON"⟩]
        noOracles).1
      none
      (some (mask_email (str "Hi Bob") [⟨str "Bob", 3, 6, str "PERSON"⟩]
        noOracles).2)).1 = str "Hi Bob" :=
  c1_round_trip (str "Hi Bob") [⟨str "Bob", 3, 6, str "PERSON"⟩] noOracles
    (fun _ => none) none (by decide) (by decide) (by decide) (by decide)

/-- C1 counterexample: the claim's stated side conditions hold for the
document "Bob and [PERSON_1]" with the single accepted span "Bob" — the
run's one surface is no duplicate and no substring of another surface or of
the generated placeholder — yet the round trip fails, because the generated
placeholder already occurs in the document (the condition the claim
omits). -/
theorem c1_counterexample :
    (∀ e ∈ (mask_email (str "Amy and [PERSON_1]")
        [⟨str "Amy", 0, 3, str "PERSON"⟩] noOracles).2,
      ∀ e2 ∈ (mask_email (str "Amy and [PERSON_1]")
        [⟨str "Amy", 0, 3, str "PERSON"⟩] noOracles).2,
      e.1 ≠ e2.1 → hasSub e2.2 e.2 = false)
    ∧ (∀ e ∈ (mask_email (str "Amy and [PERSON_1]")
        [⟨str "Amy", 0, 3, str "PERSON"⟩] noOracles).2,
      ∀ e2 ∈ (mask_email (str "Amy and [PERSON_1]")
        [⟨str "Amy", 0, 3, str "PERSON"⟩] noOracles).2,
      hasSub e2.1 e.2 = false)
    ∧ (unmask_email (fun _ => none)
        (mask_email (str "Amy and [PERSON_1]")
          [⟨str "Amy", 0, 3, str "PERSON"⟩] noOracles).1 none
        (some (mask_email (str "Amy and [PERSON_1]")
          [⟨str "Amy", 0, 3, str "PERSON"⟩] noOracles).2)).1
      ≠ str "Amy and [PERSON_1]" := by
  decide

end Mask
